import Mathlib

/-!
A verification development for the netlist-generation pipeline of a small
circuit-drawing application (`project2.py`).

The embedding models the `NetlistGenerator` class together with the geometric
parts of `CircuitCanvas` that it consumes (`get_component_pins`,
`find_nearest_pin`, the `components` and `lines` tables, `grid_size`,
`snap_threshold`).  Python dictionaries are modelled as association lists in
insertion order (`nodes`, `wire_adj`) or with head insertion and
first-match lookup (`merge`, where a later assignment shadows an earlier
one); Python sets of integers are modelled as duplicate-free lists (only
membership and iteration for uniform assignment are ever used, so the
bucket order of CPython's integer sets is immaterial); exceptions are
modelled with `Except`.
-/

namespace Circuit

/-- Integer pixel coordinates, as carried by `QPoint` in the source. -/
abbrev Pt := Int × Int

/-- The source's `(pin - point).manhattanLength()`. -/
def manhattan (a b : Pt) : Nat :=
  (a.1 - b.1).natAbs + (a.2 - b.2).natAbs

/-- The component kinds the canvas places (the sidebar buttons store exactly
these lowercase tags in `canvas.components`). -/
inductive CompKind
  | resistor
  | battery
  | capacitor
  | inductor
  | voltmeter
  | ammeter
  | ground
deriving DecidableEq

open CompKind

/-- The read-only geometric model: `canvas.components` and `canvas.lines`. -/
structure Canvas where
  components : List (CompKind × Pt)
  lines : List (Pt × Pt)
deriving DecidableEq

/-- The source's `CircuitCanvas.grid_size`. -/
def gridSize : Nat := 20

/-- The source's `CircuitCanvas.snap_threshold`. -/
def snapThreshold : Nat := 50

/-- The source's `CircuitCanvas.get_component_pins`. -/
def get_component_pins (comp : CompKind) (pos : Pt) : List Pt :=
  match comp with
  | resistor | battery | capacitor | inductor =>
      [(pos.1 - 30, pos.2), (pos.1 + 30, pos.2)]
  | voltmeter | ammeter =>
      [(pos.1 - 40, pos.2), (pos.1 + 40, pos.2)]
  | ground => [pos]

/-- The candidate list scanned by `CircuitCanvas.find_nearest_pin`:
all component pins in component order, then all wire endpoints in wire
order. -/
def candidatePins (c : Canvas) : List Pt :=
  c.components.foldl (fun acc kp => acc ++ get_component_pins kp.1 kp.2) [] ++
    c.lines.foldl (fun acc ab => acc ++ [ab.1, ab.2]) []

/-- One comparison step of `find_nearest_pin`: keep the candidate if its
distance is strictly under the threshold and strictly under the best
distance so far (`float('inf')` initially). -/
def closer (p : Pt) (acc : Option (Pt × Nat)) (pin : Pt) : Option (Pt × Nat) :=
  match acc with
  | none =>
      if manhattan pin p < snapThreshold then some (pin, manhattan pin p) else none
  | some qd =>
      if manhattan pin p < snapThreshold ∧ manhattan pin p < qd.2
      then some (pin, manhattan pin p) else some qd

/-- The source's `CircuitCanvas.find_nearest_pin`. -/
def findNearestPin (c : Canvas) (p : Pt) : Option Pt :=
  ((candidatePins c).foldl (closer p) none).map Prod.fst

/-- The mutable tables of `NetlistGenerator`. -/
structure GenState where
  nodes : List (Pt × Nat)
  next_node_num : Nat
  all_pins : List Pt
  ground_keys : List Pt
deriving DecidableEq

/-- The proximity scan of `_get_node`: first stored key within the grid-size
tolerance on both axes independently, in insertion order. -/
def findCloseNode (nodesL : List (Pt × Nat)) (key : Pt) : Option Nat :=
  match nodesL with
  | [] => none
  | kn :: rest =>
      if (kn.1.1 - key.1).natAbs < gridSize ∧ (kn.1.2 - key.2).natAbs < gridSize
      then some kn.2
      else findCloseNode rest key

/-- The canonical key of `_get_node`: the snapped coordinate when a snap is
found, the raw coordinate otherwise.  The source guards the snap with
`if snap:`, and PyQt5 gives `QPoint` the truthiness `not isNull()`, so a
snap equal to the exact origin `(0, 0)` is falsy: it is discarded like a
missing snap and the raw coordinate is kept. -/
def keyOf (c : Canvas) (p : Pt) : Pt :=
  match findNearestPin c p with
  | some s => if s = ((0 : Int), (0 : Int)) then p else s
  | none => p

/-- The source's `NetlistGenerator._get_node`.  Returns the node id (or `none`) together
with the updated generator state (only `nodes` and `next_node_num` can
change, and only when `is_new_pin` is true). -/
def getNode (c : Canvas) (st : GenState) (p : Pt) (is_new_pin : Bool) :
    Option Nat × GenState :=
  let key := keyOf c p
  if key ∈ st.ground_keys then (some 0, st)
  else
    match findCloseNode st.nodes key with
    | some nid => (some nid, st)
    | none =>
        if is_new_pin then
          (some st.next_node_num,
           { st with
              nodes := st.nodes ++ [(key, st.next_node_num)],
              next_node_num := st.next_node_num + 1 })
        else (none, st)

/-- One component's contribution in `_collect_all_pins`: a ground component
records its anchor as a ground key and as a pin; every other component
contributes its pins.  The accumulator is `(all_pins, ground_keys)`. -/
def collectStep (acc : List Pt × List Pt) (comp : CompKind × Pt) :
    List Pt × List Pt :=
  match comp.1 with
  | ground => (acc.1 ++ [comp.2], acc.2 ++ [comp.2])
  | k => (acc.1 ++ get_component_pins k comp.2, acc.2)

/-- The source's `NetlistGenerator._collect_all_pins`: clears and refills `all_pins` and
`ground_keys` (component pins first, then both endpoints of every wire). -/
def collectAllPins (c : Canvas) (st : GenState) : GenState :=
  let cw := c.components.foldl collectStep ([], [])
  let ap := c.lines.foldl (fun a ab => a ++ [ab.1, ab.2]) cw.1
  { st with all_pins := ap, ground_keys := cw.2 }

/-- Neighbour set of a node in the wire adjacency table (`wire_adj[a]`,
empty when the key is absent — the source never looks up an absent key). -/
def nbrs (adj : List (Nat × List Nat)) (a : Nat) : List Nat :=
  match adj with
  | [] => []
  | kn :: rest => if kn.1 = a then kn.2 else nbrs rest a

/-- The source's `wire_adj.setdefault(a, set()).add(b)`: extend `a`'s neighbour set with
`b`, creating the entry at the end of the table when `a` is a new key. -/
def adjInsert (adj : List (Nat × List Nat)) (a b : Nat) :
    List (Nat × List Nat) :=
  match adj with
  | [] => [(a, [b])]
  | kn :: rest =>
      if kn.1 = a then (kn.1, if b ∈ kn.2 then kn.2 else kn.2 ++ [b]) :: rest
      else kn :: adjInsert rest a b

/-- The local `add(a, b)` of `generate_netlist`: a symmetric edge. -/
def adjAdd (adj : List (Nat × List Nat)) (a b : Nat) :
    List (Nat × List Nat) :=
  adjInsert (adjInsert adj a b) b a

/-- One wire's contribution to the wire graph: resolve both endpoints
(lookup-only) and add a symmetric edge when both resolve, else skip. -/
def wireStep (c : Canvas) (st : GenState) (adj : List (Nat × List Nat))
    (ab : Pt × Pt) : List (Nat × List Nat) :=
  match (getNode c st ab.1 false).1, (getNode c st ab.2 false).1 with
  | some n1, some n2 => adjAdd adj n1 n2
  | _, _ => adj

/-- The wire-graph construction loop of `generate_netlist`. -/
def buildWireAdj (c : Canvas) (st : GenState) : List (Nat × List Nat) :=
  c.lines.foldl (wireStep c st) []

/-- Key list of the adjacency table, in insertion order (`for n in wire_adj`). -/
def adjKeys (adj : List (Nat × List Nat)) : List Nat :=
  adj.map Prod.fst

/-- Unvisited-key count, the primary termination measure of the traversal. -/
def umeas (adj : List (Nat × List Nat)) (visited : List Nat) : Nat :=
  ((adjKeys adj).toFinset.filter (fun k => k ∉ visited)).card

theorem nbrs_eq_nil_of_not_mem (adj : List (Nat × List Nat)) (a : Nat)
    (h : a ∉ adjKeys adj) : nbrs adj a = [] := by
  induction adj with
  | nil => rfl
  | cons hd tl ih =>
      simp only [adjKeys, List.map_cons, List.mem_cons, not_or] at h
      have hne : hd.1 ≠ a := fun hh => h.1 hh.symm
      simp only [nbrs, if_neg hne]
      exact ih h.2

theorem umeas_cons_lt {adj : List (Nat × List Nat)} {cur : Nat}
    {visited : List Nat} (hk : cur ∈ adjKeys adj) (hv : cur ∉ visited) :
    umeas adj (cur :: visited) < umeas adj visited := by
  apply Finset.card_lt_card
  rw [Finset.ssubset_iff_of_subset]
  · refine ⟨cur, ?_, ?_⟩
    · simp [List.mem_toFinset, hk, hv]
    · simp
  · intro x hx
    simp only [Finset.mem_filter, List.mem_toFinset, List.mem_cons, not_or] at hx ⊢
    exact ⟨hx.1, hx.2.2⟩

theorem umeas_cons_eq {adj : List (Nat × List Nat)} {cur : Nat}
    {visited : List Nat} (hk : cur ∉ adjKeys adj) :
    umeas adj (cur :: visited) = umeas adj visited := by
  unfold umeas
  congr 1
  apply Finset.filter_congr
  intro x hx
  simp only [List.mem_toFinset] at hx
  have : x ≠ cur := fun h => hk (h ▸ hx)
  simp [this]

/-- The inner `while stack:` traversal of `generate_netlist`.  The stack is
modelled with its top at the head (`stack.pop()` pops the most recently
appended element, so the neighbour list is pushed reversed). -/
def dfsLoop (adj : List (Nat × List Nat)) (visited stack g : List Nat) :
    List Nat × List Nat :=
  match stack with
  | [] => (visited, g)
  | cur :: rest =>
      if cur ∈ visited then dfsLoop adj visited rest g
      else
        dfsLoop adj (cur :: visited)
          (((nbrs adj cur).filter (fun nx => decide (nx ∉ cur :: visited))).reverse
            ++ rest)
          (g ++ [cur])
termination_by (umeas adj visited, stack.length)
decreasing_by
  · apply Prod.Lex.right
    simp
  · rcases Decidable.em (cur ∈ adjKeys adj) with hk | hk
    · exact Prod.Lex.left _ _ (umeas_cons_lt hk (by assumption))
    · rw [nbrs_eq_nil_of_not_mem adj cur hk, umeas_cons_eq hk]
      apply Prod.Lex.right
      simp

/-- The outer `for n in wire_adj:` loop: run one traversal per unvisited
key, collecting the groups in seed order. -/
def findGroups (adj : List (Nat × List Nat)) :
    List Nat → List Nat → List (List Nat) → List Nat × List (List Nat)
  | [], visited, groups => (visited, groups)
  | n :: rest, visited, groups =>
      if n ∈ visited then findGroups adj rest visited groups
      else
        let r := dfsLoop adj visited [n] []
        findGroups adj rest r.1 (groups ++ [r.2])

/-- Lookup in the `merge` dictionary (head insertion, first match, so the
latest assignment wins — ordinary dictionary overwrite semantics). -/
def mlookup (m : List (Nat × Nat)) (n : Nat) : Option Nat :=
  match m with
  | [] => none
  | kv :: rest => if kv.1 = n then some kv.2 else mlookup rest n

/-- The source's `for nid in g: merge[nid] = v`. -/
def insertGroup (m : List (Nat × Nat)) (g : List Nat) (v : Nat) :
    List (Nat × Nat) :=
  g.foldl (fun m nid => (nid, v) :: m) m

/-- One step of merging step 1: if the group touches ground
(`any(nid == 0)`), map every member to 0. -/
def mergeStep1f (m : List (Nat × Nat)) (g : List Nat) : List (Nat × Nat) :=
  if g.any (fun nid => decide (nid = 0)) then insertGroup m g 0 else m

/-- Merging step 1: every group touching ground is mapped wholly to 0. -/
def mergeStep1 (groups : List (List Nat)) : List (Nat × Nat) :=
  groups.foldl mergeStep1f []

/-- One step of merging step 2: skip a group already mapped to ground
(`any(merge.get(n) == 0)`), otherwise assign the counter to all members
and increment it once. -/
def mergeStep2f (acc : List (Nat × Nat) × Nat) (g : List Nat) :
    List (Nat × Nat) × Nat :=
  if g.any (fun n => decide (mlookup acc.1 n = some 0)) then acc
  else (insertGroup acc.1 g acc.2, acc.2 + 1)

/-- Merging step 2: each remaining group gets the next id from a counter
that starts at 1 and increments once per group. -/
def mergeStep2 (groups : List (List Nat)) (m : List (Nat × Nat)) :
    List (Nat × Nat) × Nat :=
  groups.foldl mergeStep2f (m, 1)

/-- One step of merging step 3: a stored node id not yet merged
(`nid not in merge`) gets 0 when its key is a ground key, else a fresh id. -/
def mergeStep3f (gks : List Pt) (acc : List (Nat × Nat) × Nat)
    (kn : Pt × Nat) : List (Nat × Nat) × Nat :=
  match mlookup acc.1 kn.2 with
  | some _ => acc
  | none =>
      if kn.1 ∈ gks then ((kn.2, 0) :: acc.1, acc.2)
      else ((kn.2, acc.2) :: acc.1, acc.2 + 1)

/-- Merging step 3: every stored node id not yet merged is assigned
individually — 0 when its key is a ground key, a fresh id otherwise. -/
def mergeStep3 (nodesL : List (Pt × Nat)) (gks : List Pt)
    (m : List (Nat × Nat)) (next : Nat) : List (Nat × Nat) × Nat :=
  nodesL.foldl (mergeStep3f gks) (m, next)

/-- The per-kind instance counters of the serializer
(`counts = {"resistor": 0, "battery": 0, "capacitor": 0, "inductor": 0}`). -/
structure Counts where
  resistor : Nat
  battery : Nat
  capacitor : Nat
  inductor : Nat
deriving DecidableEq

def counts0 : Counts := ⟨0, 0, 0, 0⟩

/-- The source's `counts[comp] += 1` (only the four electrical kinds are ever counted). -/
def bump (cts : Counts) (k : CompKind) : Counts :=
  match k with
  | resistor => { cts with resistor := cts.resistor + 1 }
  | battery => { cts with battery := cts.battery + 1 }
  | capacitor => { cts with capacitor := cts.capacitor + 1 }
  | inductor => { cts with inductor := cts.inductor + 1 }
  | _ => cts

/-- The source's `counts[comp]`. -/
def countOf (cts : Counts) (k : CompKind) : Nat :=
  match k with
  | resistor => cts.resistor
  | battery => cts.battery
  | capacitor => cts.capacitor
  | inductor => cts.inductor
  | _ => 0

/-- The caller-supplied value dictionary (`values`), keyed by the four
letters; a missing key falls back to the serializer's default. -/
structure CompValues where
  R : Option String
  V : Option String
  C : Option String
  L : Option String
deriving DecidableEq

/-- The letter and value chosen by the serializer's `if`/`elif` chain
(`values.get("R", "100")` and so on). -/
def pfxVal (k : CompKind) (values : CompValues) : String × String :=
  match k with
  | resistor => ("R", values.R.getD "100")
  | battery => ("V", values.V.getD "5")
  | capacitor => ("C", values.C.getD "1e-6")
  | inductor => ("L", values.L.getD "1e-3")
  | _ => ("", "")

/-- The failures `generate_netlist` can raise: the explicit short-circuit
`ValueError`, the `KeyError` of `merge[...]` on a raw id (or `None`) that
is not a key of `merge`, and the (unreachable) `IndexError` of `pins[1]`
on a pin list that is too short. -/
inductive NetlistError
  | short (kind : CompKind) (node : Nat)
  | keyError
  | indexError
deriving DecidableEq

/-- The source's `merge[self._get_node(p)]`: a `None` id or an id absent from `merge`
raises `KeyError`. -/
def mergeLookupE (m : List (Nat × Nat)) : Option Nat → Except NetlistError Nat
  | none => .error .keyError
  | some r =>
      match mlookup m r with
      | some v => .ok v
      | none => .error .keyError

/-- One iteration of the serialization loop of `generate_netlist`: skip
meters and grounds (`continue`), resolve both pins of an electrical
component through `_get_node` and `merge` (each failed dictionary access
raises), fail on a short, otherwise bump the per-kind counter and append
`<letter><index> <node1> <node2> <value>`.  The state carried by the loop
is the `(netlist, counts)` pair. -/
def serStep (c : Canvas) (st : GenState) (m : List (Nat × Nat))
    (values : CompValues) (kp : CompKind × Pt) (cts : Counts)
    (acc : List String) : Except NetlistError (List String × Counts) :=
  match kp.1 with
  | voltmeter => .ok (acc, cts)
  | ammeter => .ok (acc, cts)
  | ground => .ok (acc, cts)
  | k =>
      match get_component_pins k kp.2 with
      | p1 :: p2 :: _ =>
          match mergeLookupE m (getNode c st p1 false).1,
              mergeLookupE m (getNode c st p2 false).1 with
          | .error e, _ => .error e
          | .ok _, .error e => .error e
          | .ok n1, .ok n2 =>
              if n1 = n2 then .error (.short k n1)
              else
                .ok (acc ++
                  [(pfxVal k values).1 ++ toString (countOf (bump cts k) k) ++
                    " " ++ toString n1 ++ " " ++ toString n2 ++ " " ++
                    (pfxVal k values).2], bump cts k)
      | _ => .error .indexError

/-- The serialization loop of `generate_netlist`. -/
def serLoop (c : Canvas) (st : GenState) (m : List (Nat × Nat))
    (values : CompValues) :
    List (CompKind × Pt) → Counts → List String →
      Except NetlistError (List String × Counts)
  | [], cts, acc => .ok (acc, cts)
  | kp :: rest, cts, acc =>
      match serStep c st m values kp cts acc with
      | .ok r => serLoop c st m values rest r.2 r.1
      | .error e => .error e

/-- The source's `NetlistGenerator.generate_netlist`: reset the node tables, collect
pins, assign raw ids, build the wire graph, compute groups, build the
merge table, serialize.  Returns the result together with the generator
state left behind by the run. -/
def generateNetlist (c : Canvas) (values : CompValues) (st0 : GenState) :
    Except NetlistError String × GenState :=
  let st1 : GenState := { st0 with nodes := [], next_node_num := 1 }
  let st2 := collectAllPins c st1
  let st3 := st2.all_pins.foldl (fun st p => (getNode c st p true).2) st2
  let adj := buildWireAdj c st3
  let groups := (findGroups adj (adjKeys adj) [] []).2
  let m1 := mergeStep1 groups
  let s2 := mergeStep2 groups m1
  let s3 := mergeStep3 st3.nodes st3.ground_keys s2.1 s2.2
  (match serLoop c st3 s3.1 values c.components counts0 [] with
   | .ok r => .ok (String.intercalate "\n" r.1)
   | .error e => .error e, st3)

/-- The id-creation pass (`for p in self.all_pins: self._get_node(p, True)`). -/
def createPass (c : Canvas) (l : List Pt) (st : GenState) : GenState :=
  l.foldl (fun st p => (getNode c st p true).2) st

/-- The generator state right after `_collect_all_pins` in a run (it does
not depend on the state the generator started with, because every field is
reset). -/
def baseState (c : Canvas) : GenState :=
  collectAllPins c ⟨[], 1, [], []⟩

/-- The ground-key set collected from a canvas. -/
def groundKeysOf (c : Canvas) : List Pt :=
  (c.components.foldl collectStep ([], [])).2

/-- The generator state after the id-creation pass over `all_pins`. -/
def stRun (c : Canvas) : GenState :=
  createPass c (baseState c).all_pins (baseState c)

/-- The wire adjacency table of a run. -/
def adjOf (c : Canvas) : List (Nat × List Nat) :=
  buildWireAdj c (stRun c)

/-- The wire-connected groups of a run, in discovery order. -/
def groupsOf (c : Canvas) : List (List Nat) :=
  (findGroups (adjOf c) (adjKeys (adjOf c)) [] []).2

/-- Merge table and counter after steps 1 and 2. -/
def merge12Of (c : Canvas) : List (Nat × Nat) × Nat :=
  mergeStep2 (groupsOf c) (mergeStep1 (groupsOf c))

/-- The final merge table of a run. -/
def mergeOf (c : Canvas) : List (Nat × Nat) :=
  (mergeStep3 (stRun c).nodes (stRun c).ground_keys (merge12Of c).1
    (merge12Of c).2).1

/-- The serialization outcome of a run, phrased with the canonical
per-run tables. -/
def serResult (c : Canvas) (values : CompValues) : Except NetlistError String :=
  match serLoop c (stRun c) (mergeOf c) values c.components counts0 [] with
  | .ok r => .ok (String.intercalate "\n" r.1)
  | .error e => .error e

theorem generateNetlist_eq (c : Canvas) (values : CompValues) (st0 : GenState) :
    generateNetlist c values st0 = (serResult c values, stRun c) := by
  rfl

/-! ### The pin snapper -/

theorem closer_fold (p : Pt) (l : List Pt) :
    ∀ acc : Option (Pt × Nat),
      (∀ qd, acc = some qd → qd.2 = manhattan qd.1 p ∧ qd.2 < snapThreshold) →
      (∀ qd, l.foldl (closer p) acc = some qd →
          qd.2 = manhattan qd.1 p ∧ qd.2 < snapThreshold ∧
          (qd.1 ∈ l ∨ acc = some qd) ∧
          (∀ r ∈ l, qd.2 ≤ manhattan r p) ∧
          (∀ qd0, acc = some qd0 → qd.2 ≤ qd0.2)) ∧
      (l.foldl (closer p) acc = none →
          acc = none ∧ ∀ r ∈ l, snapThreshold ≤ manhattan r p) := by
  induction l with
  | nil =>
      intro acc hacc
      refine ⟨?_, ?_⟩
      · intro qd h
        simp only [List.foldl_nil] at h
        obtain ⟨h1, h2⟩ := hacc qd h
        exact ⟨h1, h2, Or.inr h, by simp, fun qd0 h0 => by rw [h] at h0; cases h0; rfl⟩
      · intro h
        simp only [List.foldl_nil] at h
        exact ⟨h, by simp⟩
  | cons pin rest ih =>
      intro acc hacc
      have hstep : ∀ qd, closer p acc pin = some qd →
          qd.2 = manhattan qd.1 p ∧ qd.2 < snapThreshold := by
        intro qd h
        rcases acc with _ | qd0
        · simp only [closer] at h
          split at h
          · cases h; exact ⟨rfl, by assumption⟩
          · exact absurd h (by simp)
        · simp only [closer] at h
          split at h
          · cases h; rename_i hcond; exact ⟨rfl, hcond.1⟩
          · cases h; exact hacc _ rfl
      have hmem : ∀ qd, closer p acc pin = some qd → qd.1 = pin ∨ acc = some qd := by
        intro qd h
        rcases acc with _ | qd0
        · simp only [closer] at h
          split at h
          · cases h; exact Or.inl rfl
          · exact absurd h (by simp)
        · simp only [closer] at h
          split at h
          · cases h; exact Or.inl rfl
          · cases h; exact Or.inr rfl
      have hle : ∀ qd, closer p acc pin = some qd → qd.2 ≤ manhattan pin p := by
        intro qd h
        rcases acc with _ | qd0
        · simp only [closer] at h
          split at h
          · cases h; exact le_refl _
          · exact absurd h (by simp)
        · simp only [closer] at h
          split at h
          · cases h; exact le_refl _
          · cases h
            rename_i hcond
            have hlt := (hacc _ rfl).2
            rcases Nat.lt_or_ge (manhattan pin p) snapThreshold with hd | hd
            · have : ¬ manhattan pin p < qd.2 := fun hb => hcond ⟨hd, hb⟩
              omega
            · omega
      have hdec : ∀ qd qd0, closer p acc pin = some qd → acc = some qd0 →
          qd.2 ≤ qd0.2 := by
        intro qd qd0 h h0
        subst h0
        simp only [closer] at h
        split at h
        · cases h
          rename_i hcond
          exact le_of_lt hcond.2
        · cases h; exact le_refl _
      have hnone : closer p acc pin = none →
          acc = none ∧ snapThreshold ≤ manhattan pin p := by
        intro h
        rcases acc with _ | qd0
        · simp only [closer] at h
          split at h
          · exact absurd h (by simp)
          · rename_i hcond; exact ⟨rfl, by omega⟩
        · simp only [closer] at h
          split at h <;> exact absurd h (by simp)
      obtain ⟨ihs, ihn⟩ := ih (closer p acc pin) hstep
      refine ⟨?_, ?_⟩
      · intro qd h
        simp only [List.foldl_cons] at h
        obtain ⟨h1, h2, h3, h4, h5⟩ := ihs qd h
        refine ⟨h1, h2, ?_, ?_, ?_⟩
        · rcases h3 with h3 | h3
          · exact Or.inl (List.mem_cons_of_mem _ h3)
          · rcases hmem qd h3 with hm | hm
            · exact Or.inl (hm ▸ List.mem_cons_self _ _)
            · exact Or.inr hm
        · intro r hr
          rcases List.mem_cons.mp hr with hr | hr
          · rw [hr]
            rcases hc : closer p acc pin with _ | qd'
            · obtain ⟨-, hge⟩ := hnone hc
              exact le_trans (le_of_lt h2) hge
            · exact le_trans (h5 qd' hc) (hle qd' hc)
          · exact h4 r hr
        · intro qd0 h0
          rcases hc : closer p acc pin with _ | qd'
          · obtain ⟨habs, -⟩ := hnone hc
            rw [h0] at habs; cases habs
          · exact le_trans (h5 qd' hc) (hdec qd' qd0 hc h0)
      · intro h
        simp only [List.foldl_cons] at h
        obtain ⟨h1, h2⟩ := ihn h
        obtain ⟨h3, h4⟩ := hnone h1
        refine ⟨h3, ?_⟩
        intro r hr
        rcases List.mem_cons.mp hr with hr | hr
        · rw [hr]; exact h4
        · exact h2 r hr

theorem findNearestPin_some (c : Canvas) (p q : Pt)
    (h : findNearestPin c p = some q) :
    q ∈ candidatePins c ∧ manhattan q p < snapThreshold ∧
      ∀ r ∈ candidatePins c, manhattan q p ≤ manhattan r p := by
  unfold findNearestPin at h
  rcases hf : (candidatePins c).foldl (closer p) none with _ | qd
  · rw [hf] at h; cases h
  · rw [hf] at h
    have hq : qd.1 = q := by simpa using h
    obtain ⟨h1, h2, h3, h4, -⟩ :=
      (closer_fold p (candidatePins c) none (by simp)).1 qd hf
    subst hq
    rcases h3 with h3 | h3
    · exact ⟨h3, h1 ▸ h2, fun r hr => h1 ▸ h4 r hr⟩
    · cases h3

theorem findNearestPin_none (c : Canvas) (p : Pt)
    (h : findNearestPin c p = none) :
    ∀ r ∈ candidatePins c, snapThreshold ≤ manhattan r p := by
  unfold findNearestPin at h
  rcases hf : (candidatePins c).foldl (closer p) none with _ | qd
  · exact ((closer_fold p (candidatePins c) none (by simp)).2 hf).2
  · rw [hf] at h; cases h

/-! ### The node assigner -/

theorem findCloseNode_some (l : List (Pt × Nat)) (key : Pt) (nid : Nat)
    (h : findCloseNode l key = some nid) :
    ∃ kn ∈ l, kn.2 = nid ∧
      (kn.1.1 - key.1).natAbs < gridSize ∧ (kn.1.2 - key.2).natAbs < gridSize := by
  induction l with
  | nil => cases h
  | cons kn rest ih =>
      simp only [findCloseNode] at h
      split at h
      · cases h
        exact ⟨kn, List.mem_cons_self _ _, rfl, by assumption⟩
      · obtain ⟨kn', hm, he, hc⟩ := ih h
        exact ⟨kn', List.mem_cons_of_mem _ hm, he, hc⟩

theorem findCloseNode_none (l : List (Pt × Nat)) (key : Pt) :
    findCloseNode l key = none ↔
      ∀ kn ∈ l, ¬ ((kn.1.1 - key.1).natAbs < gridSize ∧
        (kn.1.2 - key.2).natAbs < gridSize) := by
  induction l with
  | nil => simp [findCloseNode]
  | cons kn rest ih =>
      simp only [findCloseNode]
      split
      · constructor
        · intro h; cases h
        · intro h
          exact absurd (by assumption) (h kn (List.mem_cons_self _ _))
      · rw [ih]
        constructor
        · intro h kn' hm
          rcases List.mem_cons.mp hm with hm | hm
          · subst hm; assumption
          · exact h kn' hm
        · intro h kn' hm
          exact h kn' (List.mem_cons_of_mem _ hm)

theorem getNode_ground (c : Canvas) (st : GenState) (p : Pt) (b : Bool)
    (h : keyOf c p ∈ st.ground_keys) :
    getNode c st p b = (some 0, st) := by
  simp [getNode, h]

theorem getNode_found (c : Canvas) (st : GenState) (p : Pt) (b : Bool) (nid : Nat)
    (h : keyOf c p ∉ st.ground_keys)
    (hf : findCloseNode st.nodes (keyOf c p) = some nid) :
    getNode c st p b = (some nid, st) := by
  simp [getNode, h, hf]

theorem getNode_create (c : Canvas) (st : GenState) (p : Pt)
    (h : keyOf c p ∉ st.ground_keys)
    (hf : findCloseNode st.nodes (keyOf c p) = none) :
    getNode c st p true =
      (some st.next_node_num,
       { st with nodes := st.nodes ++ [(keyOf c p, st.next_node_num)],
                 next_node_num := st.next_node_num + 1 }) := by
  simp [getNode, h, hf]

theorem getNode_miss (c : Canvas) (st : GenState) (p : Pt)
    (h : keyOf c p ∉ st.ground_keys)
    (hf : findCloseNode st.nodes (keyOf c p) = none) :
    getNode c st p false = (none, st) := by
  simp [getNode, h, hf]

/-- Everything `_get_node` can do to the generator state: nothing, or (in
creation mode, for a fresh non-ground key) append one new node entry and
advance the counter. -/
theorem getNode_state_cases (c : Canvas) (st : GenState) (p : Pt) (b : Bool) :
    (getNode c st p b).2 = st ∨
      ((getNode c st p b).2.nodes = st.nodes ++ [(keyOf c p, st.next_node_num)] ∧
        (getNode c st p b).2.next_node_num = st.next_node_num + 1 ∧
        (getNode c st p b).2.ground_keys = st.ground_keys ∧
        (getNode c st p b).2.all_pins = st.all_pins ∧
        b = true ∧ keyOf c p ∉ st.ground_keys ∧
        findCloseNode st.nodes (keyOf c p) = none) := by
  by_cases hg : keyOf c p ∈ st.ground_keys
  · rw [getNode_ground c st p b hg]
    exact Or.inl rfl
  · rcases hf : findCloseNode st.nodes (keyOf c p) with _ | nid
    · cases b
      · rw [getNode_miss c st p hg hf]
        exact Or.inl rfl
      · rw [getNode_create c st p hg hf]
        exact Or.inr ⟨rfl, rfl, rfl, rfl, rfl, hg, rfl⟩
    · rw [getNode_found c st p b nid hg hf]
      exact Or.inl rfl

/-- Invariant of the node table during the creation pass: node ids are
positive and below the counter, pairwise increasing (hence distinct), and
no stored key is a ground key. -/
def NodesInv (st : GenState) : Prop :=
  1 ≤ st.next_node_num ∧
    (∀ kn ∈ st.nodes, kn.1 ∉ st.ground_keys ∧ 1 ≤ kn.2 ∧ kn.2 < st.next_node_num) ∧
    (st.nodes.map Prod.snd).Pairwise (· < ·)

theorem getNode_inv (c : Canvas) (st : GenState) (p : Pt) (b : Bool)
    (h : NodesInv st) :
    NodesInv (getNode c st p b).2 ∧
      (getNode c st p b).2.ground_keys = st.ground_keys ∧
      (getNode c st p b).2.all_pins = st.all_pins := by
  rcases getNode_state_cases c st p b with hc | ⟨e1, e2, e3, e4, -, hg, -⟩
  · rw [hc]; exact ⟨h, rfl, rfl⟩
  · obtain ⟨h1, h2, h3⟩ := h
    refine ⟨⟨?_, ?_, ?_⟩, e3, e4⟩
    · rw [e2]; omega
    · intro kn hm
      rw [e1] at hm
      rw [e3, e2]
      rcases List.mem_append.mp hm with hm | hm
      · obtain ⟨ha, hb, hcv⟩ := h2 kn hm
        exact ⟨ha, hb, by omega⟩
      · rcases List.mem_singleton.mp hm with rfl
        exact ⟨hg, h1, by omega⟩
    · rw [e1, List.map_append, List.pairwise_append]
      refine ⟨h3, by simp, ?_⟩
      intro a ha b' hb'
      simp only [List.map_cons, List.map_nil, List.mem_singleton] at hb'
      subst hb'
      obtain ⟨kn, hm, he⟩ := List.mem_map.mp ha
      exact he ▸ (h2 kn hm).2.2

theorem createPass_inv (c : Canvas) (l : List Pt) :
    ∀ st : GenState, NodesInv st →
      NodesInv (createPass c l st) ∧
        (createPass c l st).ground_keys = st.ground_keys ∧
        (createPass c l st).all_pins = st.all_pins := by
  induction l with
  | nil => intro st h; exact ⟨h, rfl, rfl⟩
  | cons p rest ih =>
      intro st h
      obtain ⟨h1, h2, h3⟩ := getNode_inv c st p true h
      obtain ⟨g1, g2, g3⟩ := ih (getNode c st p true).2 h1
      exact ⟨g1, g2.trans h2, g3.trans h3⟩

theorem baseState_inv (c : Canvas) : NodesInv (baseState c) := by
  refine ⟨le_refl 1, ?_, ?_⟩ <;> simp [baseState, collectAllPins]

theorem stRun_inv (c : Canvas) : NodesInv (stRun c) :=
  (createPass_inv c (baseState c).all_pins (baseState c) (baseState_inv c)).1

theorem stRun_ground_keys (c : Canvas) :
    (stRun c).ground_keys = groundKeysOf c :=
  (createPass_inv c (baseState c).all_pins (baseState c) (baseState_inv c)).2.1

/-! ### The wire graph -/

/-- Directed edge of the adjacency table (they come in symmetric pairs). -/
def Edge (adj : List (Nat × List Nat)) (a b : Nat) : Prop :=
  b ∈ nbrs adj a

/-- Wire connectivity: reflexive-transitive closure of the edge relation. -/
def Reach (adj : List (Nat × List Nat)) : Nat → Nat → Prop :=
  Relation.ReflTransGen (Edge adj)

theorem edge_mem_adjKeys {adj : List (Nat × List Nat)} {a b : Nat}
    (h : Edge adj a b) : a ∈ adjKeys adj := by
  by_contra hk
  rw [Edge, nbrs_eq_nil_of_not_mem adj a hk] at h
  cases h

theorem nbrs_adjInsert_self (adj : List (Nat × List Nat)) (a b x : Nat) :
    x ∈ nbrs (adjInsert adj a b) a ↔ x ∈ nbrs adj a ∨ x = b := by
  induction adj with
  | nil =>
      simp [adjInsert, nbrs]
  | cons kn rest ih =>
      by_cases hk : kn.1 = a
      · simp only [adjInsert, if_pos hk, nbrs, hk, if_pos rfl]
        by_cases hb : b ∈ kn.2
        · rw [if_pos hb]
          constructor
          · exact fun h => Or.inl h
          · rintro (h | rfl)
            · exact h
            · exact hb
        · rw [if_neg hb]
          simp
      · simp only [adjInsert, if_neg hk, nbrs, if_neg hk]
        exact ih

theorem nbrs_adjInsert_other (adj : List (Nat × List Nat)) (a b x : Nat)
    (hx : x ≠ a) : nbrs (adjInsert adj a b) x = nbrs adj x := by
  induction adj with
  | nil =>
      simp only [adjInsert, nbrs]
      rw [if_neg (fun h => hx h.symm)]
  | cons kn rest ih =>
      by_cases hk : kn.1 = a
      · simp only [adjInsert, if_pos hk, nbrs]
        have : ¬ kn.1 = x := fun h => hx (h ▸ hk)
        rw [if_neg this, if_neg this]
      · simp only [adjInsert, if_neg hk, nbrs]
        by_cases hkx : kn.1 = x
        · rw [if_pos hkx, if_pos hkx]
        · rw [if_neg hkx, if_neg hkx]
          exact ih

theorem edge_adjInsert_iff (adj : List (Nat × List Nat)) (a b x y : Nat) :
    Edge (adjInsert adj a b) x y ↔ Edge adj x y ∨ (x = a ∧ y = b) := by
  by_cases hx : x = a
  · subst hx
    rw [Edge, nbrs_adjInsert_self]
    constructor
    · rintro (h | rfl)
      · exact Or.inl h
      · exact Or.inr ⟨rfl, rfl⟩
    · rintro (h | ⟨-, rfl⟩)
      · exact Or.inl h
      · exact Or.inr rfl
  · rw [Edge, nbrs_adjInsert_other adj a b x hx]
    constructor
    · exact fun h => Or.inl h
    · rintro (h | ⟨h, -⟩)
      · exact h
      · exact absurd h hx

theorem edge_adjAdd_iff (adj : List (Nat × List Nat)) (a b x y : Nat) :
    Edge (adjAdd adj a b) x y ↔
      Edge adj x y ∨ (x = a ∧ y = b) ∨ (x = b ∧ y = a) := by
  unfold adjAdd
  rw [edge_adjInsert_iff, edge_adjInsert_iff]
  tauto

theorem adjKeys_adjInsert (adj : List (Nat × List Nat)) (a b x : Nat) :
    x ∈ adjKeys (adjInsert adj a b) ↔ x ∈ adjKeys adj ∨ x = a := by
  induction adj with
  | nil => simp [adjInsert, adjKeys]
  | cons kn rest ih =>
      by_cases hk : kn.1 = a
      · subst hk
        simp only [adjInsert, if_pos trivial, if_true]
        simp only [adjKeys, List.map_cons, List.mem_cons]
        tauto
      · simp only [adjInsert, if_neg hk, adjKeys, List.map_cons,
          List.mem_cons] at ih ⊢
        rw [ih]
        tauto

theorem adjKeys_adjAdd (adj : List (Nat × List Nat)) (a b x : Nat) :
    x ∈ adjKeys (adjAdd adj a b) ↔ x ∈ adjKeys adj ∨ x = a ∨ x = b := by
  unfold adjAdd
  rw [adjKeys_adjInsert, adjKeys_adjInsert]
  tauto

/-- Symmetry of the edge relation, an invariant of the built table. -/
def SymAdj (adj : List (Nat × List Nat)) : Prop :=
  ∀ a b, Edge adj a b → Edge adj b a

theorem symAdj_adjAdd {adj : List (Nat × List Nat)} (h : SymAdj adj)
    (a b : Nat) : SymAdj (adjAdd adj a b) := by
  intro x y hxy
  rw [edge_adjAdd_iff] at hxy ⊢
  rcases hxy with hxy | ⟨rfl, rfl⟩ | ⟨rfl, rfl⟩
  · exact Or.inl (h x y hxy)
  · exact Or.inr (Or.inr ⟨rfl, rfl⟩)
  · exact Or.inr (Or.inl ⟨rfl, rfl⟩)

/-- In lookup mode `_get_node` returns `0` or a stored node id. -/
theorem getNode_false_mem (c : Canvas) (st : GenState) (p : Pt) (n : Nat)
    (h : (getNode c st p false).1 = some n) :
    n = 0 ∨ n ∈ st.nodes.map Prod.snd := by
  by_cases hg : keyOf c p ∈ st.ground_keys
  · rw [getNode_ground c st p false hg] at h
    cases h
    exact Or.inl rfl
  · rcases hf : findCloseNode st.nodes (keyOf c p) with _ | nid
    · rw [getNode_miss c st p hg hf] at h
      cases h
    · rw [getNode_found c st p false nid hg hf] at h
      cases h
      obtain ⟨kn, hm, he, -⟩ := findCloseNode_some st.nodes (keyOf c p) n hf
      exact Or.inr (List.mem_map.mpr ⟨kn, hm, he⟩)

/-- Each `wireStep` either skips the wire or adds one resolved symmetric edge. -/
theorem wireStep_cases (c : Canvas) (st : GenState)
    (adj : List (Nat × List Nat)) (ab : Pt × Pt) :
    wireStep c st adj ab = adj ∨
      ∃ n1 n2, (getNode c st ab.1 false).1 = some n1 ∧
        (getNode c st ab.2 false).1 = some n2 ∧
        wireStep c st adj ab = adjAdd adj n1 n2 := by
  unfold wireStep
  rcases (getNode c st ab.1 false).1 with _ | n1
  · exact Or.inl rfl
  · rcases (getNode c st ab.2 false).1 with _ | n2
    · exact Or.inl rfl
    · exact Or.inr ⟨n1, n2, rfl, rfl, rfl⟩

/-- The invariants of the built wire graph: symmetric edges, and every key
is 0 or a stored node id. -/
theorem buildWireAdj_inv (c : Canvas) (st : GenState) :
    SymAdj (buildWireAdj c st) ∧
      ∀ k ∈ adjKeys (buildWireAdj c st), k = 0 ∨ k ∈ st.nodes.map Prod.snd := by
  unfold buildWireAdj
  generalize c.lines = ws
  induction ws using List.reverseRecOn with
  | nil =>
      constructor
      · intro a b h; cases h
      · intro k hk; cases hk
  | append_singleton ws ab ih =>
      rw [List.foldl_append, List.foldl_cons, List.foldl_nil]
      obtain ⟨ihs, ihk⟩ := ih
      rcases wireStep_cases c st (ws.foldl (wireStep c st) []) ab with
        hc | ⟨n1, n2, h1, h2, hc⟩
      · rw [hc]; exact ⟨ihs, ihk⟩
      · rw [hc]
        constructor
        · exact symAdj_adjAdd ihs n1 n2
        · intro k hk
          rw [adjKeys_adjAdd] at hk
          rcases hk with hk | rfl | rfl
          · exact ihk k hk
          · exact getNode_false_mem c st ab.1 k h1
          · exact getNode_false_mem c st ab.2 k h2

/-! ### Correctness of the traversal -/

theorem dfsLoop_nil (adj : List (Nat × List Nat)) (visited g : List Nat) :
    dfsLoop adj visited [] g = (visited, g) := by
  simp only [dfsLoop]

theorem dfsLoop_cons_mem (adj : List (Nat × List Nat))
    (visited : List Nat) (cur : Nat) (rest g : List Nat) (h : cur ∈ visited) :
    dfsLoop adj visited (cur :: rest) g = dfsLoop adj visited rest g := by
  simp only [dfsLoop]
  rw [if_pos h]

theorem dfsLoop_cons_new (adj : List (Nat × List Nat))
    (visited : List Nat) (cur : Nat) (rest g : List Nat) (h : cur ∉ visited) :
    dfsLoop adj visited (cur :: rest) g =
      dfsLoop adj (cur :: visited)
        (((nbrs adj cur).filter (fun nx => decide (nx ∉ cur :: visited))).reverse
          ++ rest)
        (g ++ [cur]) := by
  simp only [dfsLoop]
  rw [if_neg h]

theorem dfsLoop_visited_mono (adj : List (Nat × List Nat)) :
    ∀ visited stack g : List Nat, ∀ x ∈ visited,
      x ∈ (dfsLoop adj visited stack g).1 := by
  intro visited stack g
  induction visited, stack, g using dfsLoop.induct adj with
  | case1 visited g =>
      intro x hx
      rw [dfsLoop_nil]
      exact hx
  | case2 visited g cur rest h ih =>
      intro x hx
      rw [dfsLoop_cons_mem adj visited cur rest g h]
      exact ih x hx
  | case3 visited g cur rest h ih =>
      intro x hx
      rw [dfsLoop_cons_new adj visited cur rest g h]
      exact ih x (List.mem_cons_of_mem _ hx)

theorem dfsLoop_g_iff (adj : List (Nat × List Nat)) :
    ∀ visited stack g : List Nat, ∀ x,
      x ∈ (dfsLoop adj visited stack g).2 ↔
        x ∈ g ∨ (x ∈ (dfsLoop adj visited stack g).1 ∧ x ∉ visited) := by
  intro visited stack g
  induction visited, stack, g using dfsLoop.induct adj with
  | case1 visited g =>
      intro x
      rw [dfsLoop_nil]
      constructor
      · exact fun h => Or.inl h
      · rintro (h | ⟨h1, h2⟩)
        · exact h
        · exact absurd h1 h2
  | case2 visited g cur rest h ih =>
      intro x
      rw [dfsLoop_cons_mem adj visited cur rest g h]
      exact ih x
  | case3 visited g cur rest h ih =>
      intro x
      rw [dfsLoop_cons_new adj visited cur rest g h]
      rw [ih x]
      constructor
      · rintro (hg | ⟨h1, h2⟩)
        · rcases List.mem_append.mp hg with hg | hg
          · exact Or.inl hg
          · rcases List.mem_singleton.mp hg with rfl
            refine Or.inr ⟨?_, h⟩
            exact dfsLoop_visited_mono adj _ _ _ x (List.mem_cons_self _ _)
        · refine Or.inr ⟨h1, fun hx => h2 (List.mem_cons_of_mem _ hx)⟩
      · rintro (hg | ⟨h1, h2⟩)
        · exact Or.inl (List.mem_append.mpr (Or.inl hg))
        · by_cases hxc : x = cur
          · subst hxc
            exact Or.inl (List.mem_append.mpr (Or.inr (List.mem_singleton.mpr rfl)))
          · refine Or.inr ⟨h1, ?_⟩
            intro hx
            rcases List.mem_cons.mp hx with hx | hx
            · exact hxc hx
            · exact h2 hx

theorem dfsLoop_reach (adj : List (Nat × List Nat)) :
    ∀ visited stack g : List Nat, ∀ x ∈ (dfsLoop adj visited stack g).1,
      x ∈ visited ∨ ∃ s ∈ stack, Reach adj s x := by
  intro visited stack g
  induction visited, stack, g using dfsLoop.induct adj with
  | case1 visited g =>
      intro x hx
      rw [dfsLoop_nil] at hx
      exact Or.inl hx
  | case2 visited g cur rest h ih =>
      intro x hx
      rw [dfsLoop_cons_mem adj visited cur rest g h] at hx
      rcases ih x hx with hv | ⟨s, hs, hr⟩
      · exact Or.inl hv
      · exact Or.inr ⟨s, List.mem_cons_of_mem _ hs, hr⟩
  | case3 visited g cur rest h ih =>
      intro x hx
      rw [dfsLoop_cons_new adj visited cur rest g h] at hx
      rcases ih x hx with hv | ⟨s, hs, hr⟩
      · rcases List.mem_cons.mp hv with rfl | hv
        · exact Or.inr ⟨x, List.mem_cons_self _ _, Relation.ReflTransGen.refl⟩
        · exact Or.inl hv
      · rcases List.mem_append.mp hs with hs | hs
        · rw [List.mem_reverse] at hs
          have he : Edge adj cur s := (List.mem_filter.mp hs).1
          exact Or.inr ⟨cur, List.mem_cons_self _ _,
            Relation.ReflTransGen.head he hr⟩
        · exact Or.inr ⟨s, List.mem_cons_of_mem _ hs, hr⟩

theorem dfsLoop_closed (adj : List (Nat × List Nat)) :
    ∀ visited stack g : List Nat,
      (∀ x ∈ visited, ∀ y, Edge adj x y → y ∈ visited ∨ y ∈ stack) →
      ∀ x ∈ (dfsLoop adj visited stack g).1, ∀ y, Edge adj x y →
        y ∈ (dfsLoop adj visited stack g).1 := by
  intro visited stack g
  induction visited, stack, g using dfsLoop.induct adj with
  | case1 visited g =>
      intro hinv x hx y he
      rw [dfsLoop_nil] at hx ⊢
      rcases hinv x hx y he with hv | hv
      · exact hv
      · cases hv
  | case2 visited g cur rest h ih =>
      intro hinv x hx y he
      rw [dfsLoop_cons_mem adj visited cur rest g h] at hx ⊢
      refine ih ?_ x hx y he
      intro a ha b hab
      rcases hinv a ha b hab with hb | hb
      · exact Or.inl hb
      · rcases List.mem_cons.mp hb with rfl | hb
        · exact Or.inl h
        · exact Or.inr hb
  | case3 visited g cur rest h ih =>
      intro hinv x hx y he
      rw [dfsLoop_cons_new adj visited cur rest g h] at hx ⊢
      refine ih ?_ x hx y he
      intro a ha b hab
      rcases List.mem_cons.mp ha with rfl | ha
      · by_cases hb : b ∈ a :: visited
        · exact Or.inl hb
        · refine Or.inr (List.mem_append.mpr (Or.inl ?_))
          rw [List.mem_reverse]
          exact List.mem_filter.mpr ⟨hab, by simpa using hb⟩
      · rcases hinv a ha b hab with hb | hb
        · exact Or.inl (List.mem_cons_of_mem _ hb)
        · rcases List.mem_cons.mp hb with rfl | hb
          · exact Or.inl (List.mem_cons_self _ _)
          · exact Or.inr (List.mem_append.mpr (Or.inr hb))

theorem dfsLoop_stack_sub (adj : List (Nat × List Nat)) :
    ∀ visited stack g : List Nat, ∀ s ∈ stack,
      s ∈ (dfsLoop adj visited stack g).1 := by
  intro visited stack g
  induction visited, stack, g using dfsLoop.induct adj with
  | case1 visited g =>
      intro s hs
      cases hs
  | case2 visited g cur rest h ih =>
      intro s hs
      rw [dfsLoop_cons_mem adj visited cur rest g h]
      rcases List.mem_cons.mp hs with rfl | hs
      · exact dfsLoop_visited_mono adj _ _ _ s h
      · exact ih s hs
  | case3 visited g cur rest h ih =>
      intro s hs
      rw [dfsLoop_cons_new adj visited cur rest g h]
      rcases List.mem_cons.mp hs with rfl | hs
      · exact dfsLoop_visited_mono adj _ _ _ s (List.mem_cons_self _ _)
      · exact ih s (List.mem_append.mpr (Or.inr hs))

theorem reach_mem_of_closed {adj : List (Nat × List Nat)} {vis : List Nat}
    (hc : ∀ x ∈ vis, ∀ y, Edge adj x y → y ∈ vis) {s x : Nat}
    (hs : s ∈ vis) (hr : Reach adj s x) : x ∈ vis := by
  induction hr with
  | refl => exact hs
  | tail _ e ih => exact hc _ ih _ e

theorem reach_symm {adj : List (Nat × List Nat)} (hsym : SymAdj adj)
    {a b : Nat} (h : Reach adj a b) : Reach adj b a := by
  induction h with
  | refl => exact Relation.ReflTransGen.refl
  | tail _ e ih => exact Relation.ReflTransGen.head (hsym _ _ e) ih

theorem reach_mem_keys {adj : List (Nat × List Nat)} (hsym : SymAdj adj)
    {s x : Nat} (h : Reach adj s x) (hs : s ∈ adjKeys adj) :
    x ∈ adjKeys adj := by
  induction h with
  | refl => exact hs
  | tail _ e _ => exact edge_mem_adjKeys (hsym _ _ e)

/-- The one-seed traversal computes exactly the wire-connected component of
its seed, provided the already-visited set is closed under edges and the
seed is fresh. -/
theorem dfsLoop_component (adj : List (Nat × List Nat)) (hsym : SymAdj adj)
    (visited : List Nat) (seed : Nat)
    (hclosed : ∀ x ∈ visited, ∀ y, Edge adj x y → y ∈ visited)
    (hseed : seed ∉ visited) :
    (∀ x, x ∈ (dfsLoop adj visited [seed] []).2 ↔ Reach adj seed x) ∧
      (∀ x, x ∈ (dfsLoop adj visited [seed] []).1 ↔
        x ∈ visited ∨ Reach adj seed x) ∧
      (∀ x ∈ (dfsLoop adj visited [seed] []).1, ∀ y, Edge adj x y →
        y ∈ (dfsLoop adj visited [seed] []).1) := by
  have hres_closed : ∀ x ∈ (dfsLoop adj visited [seed] []).1, ∀ y,
      Edge adj x y → y ∈ (dfsLoop adj visited [seed] []).1 := by
    refine dfsLoop_closed adj visited [seed] [] ?_
    intro x hx y he
    exact Or.inl (hclosed x hx y he)
  have hseed_mem : seed ∈ (dfsLoop adj visited [seed] []).1 :=
    dfsLoop_stack_sub adj visited [seed] [] seed (List.mem_cons_self _ _)
  have hreach_not_vis : ∀ x, Reach adj seed x → x ∉ visited := by
    intro x hr hx
    exact hseed (reach_mem_of_closed hclosed hx (reach_symm hsym hr))
  have hvis_iff : ∀ x, x ∈ (dfsLoop adj visited [seed] []).1 ↔
      x ∈ visited ∨ Reach adj seed x := by
    intro x
    constructor
    · intro hx
      rcases dfsLoop_reach adj visited [seed] [] x hx with hv | ⟨s, hs, hr⟩
      · exact Or.inl hv
      · rcases List.mem_singleton.mp hs with rfl
        exact Or.inr hr
    · rintro (hv | hr)
      · exact dfsLoop_visited_mono adj _ _ _ x hv
      · exact reach_mem_of_closed hres_closed hseed_mem hr
  refine ⟨?_, hvis_iff, hres_closed⟩
  intro x
  rw [dfsLoop_g_iff adj visited [seed] [] x]
  constructor
  · rintro (h | ⟨h1, h2⟩)
    · cases h
    · rcases (hvis_iff x).mp h1 with hv | hr
      · exact absurd hv h2
      · exact hr
  · intro hr
    exact Or.inr ⟨(hvis_iff x).mpr (Or.inr hr), hreach_not_vis x hr⟩

/-! ### Correctness of the grouping loop -/

theorem findGroups_visited_mono (adj : List (Nat × List Nat)) :
    ∀ (keys visited : List Nat) (groups : List (List Nat)), ∀ x ∈ visited,
      x ∈ (findGroups adj keys visited groups).1 := by
  intro keys
  induction keys with
  | nil => intro visited groups x hx; exact hx
  | cons n rest ih =>
      intro visited groups x hx
      by_cases hn : n ∈ visited
      · rw [show findGroups adj (n :: rest) visited groups =
          findGroups adj rest visited groups by
            simp only [findGroups]; rw [if_pos hn]]
        exact ih visited groups x hx
      · rw [show findGroups adj (n :: rest) visited groups =
          findGroups adj rest (dfsLoop adj visited [n] []).1
            (groups ++ [(dfsLoop adj visited [n] []).2]) by
            simp only [findGroups]; rw [if_neg hn]]
        exact ih _ _ x (dfsLoop_visited_mono adj visited [n] [] x hx)

/-- The disjointness relation between two groups. -/
def DisjG (g1 g2 : List Nat) : Prop := ∀ x, x ∈ g1 → x ∉ g2

/-- Full invariant of the outer grouping loop: the visited set is exactly
the union of the collected groups, every group is the wire-connected
component of some seed, groups are pairwise disjoint, their members are
table keys, and every processed key ends up visited. -/
theorem findGroups_sound (adj : List (Nat × List Nat)) (hsym : SymAdj adj) :
    ∀ (keys visited : List Nat) (groups : List (List Nat)),
      (∀ x ∈ visited, ∀ y, Edge adj x y → y ∈ visited) →
      (∀ x, x ∈ visited ↔ ∃ g ∈ groups, x ∈ g) →
      (∀ g ∈ groups, ∃ s, ∀ x, x ∈ g ↔ Reach adj s x) →
      List.Pairwise DisjG groups →
      (∀ g ∈ groups, ∀ x ∈ g, x ∈ adjKeys adj) →
      (∀ k ∈ keys, k ∈ adjKeys adj) →
      ((∀ x, x ∈ (findGroups adj keys visited groups).1 ↔
          ∃ g ∈ (findGroups adj keys visited groups).2, x ∈ g) ∧
        (∀ g ∈ (findGroups adj keys visited groups).2, ∃ s,
          ∀ x, x ∈ g ↔ Reach adj s x) ∧
        List.Pairwise DisjG (findGroups adj keys visited groups).2 ∧
        (∀ k ∈ keys, k ∈ (findGroups adj keys visited groups).1) ∧
        (∀ g ∈ (findGroups adj keys visited groups).2, ∀ x ∈ g,
          x ∈ adjKeys adj)) := by
  intro keys
  induction keys with
  | nil =>
      intro visited groups hvc hcov hgs hdisj hmem hkeys
      exact ⟨hcov, hgs, hdisj, by simp, hmem⟩
  | cons n rest ih =>
      intro visited groups hvc hcov hgs hdisj hmem hkeys
      by_cases hn : n ∈ visited
      · rw [show findGroups adj (n :: rest) visited groups =
          findGroups adj rest visited groups by
            simp only [findGroups]; rw [if_pos hn]]
        obtain ⟨c1, c2, c3, c4, c5⟩ := ih visited groups hvc hcov hgs hdisj hmem
          (fun k hk => hkeys k (List.mem_cons_of_mem _ hk))
        refine ⟨c1, c2, c3, ?_, c5⟩
        intro k hk
        rcases List.mem_cons.mp hk with rfl | hk
        · exact findGroups_visited_mono adj rest visited groups k hn
        · exact c4 k hk
      · rw [show findGroups adj (n :: rest) visited groups =
          findGroups adj rest (dfsLoop adj visited [n] []).1
            (groups ++ [(dfsLoop adj visited [n] []).2]) by
            simp only [findGroups]; rw [if_neg hn]]
        obtain ⟨hg_iff, hv_iff, hclo'⟩ :=
          dfsLoop_component adj hsym visited n hvc hn
        have hreach_nv : ∀ x, Reach adj n x → x ∉ visited := by
          intro x hr hx
          exact hn (reach_mem_of_closed hvc hx (reach_symm hsym hr))
        have hcov' : ∀ x, x ∈ (dfsLoop adj visited [n] []).1 ↔
            ∃ g ∈ groups ++ [(dfsLoop adj visited [n] []).2], x ∈ g := by
          intro x
          rw [hv_iff x]
          constructor
          · rintro (hv | hr)
            · obtain ⟨g, hg, hx⟩ := (hcov x).mp hv
              exact ⟨g, List.mem_append.mpr (Or.inl hg), hx⟩
            · exact ⟨_, List.mem_append.mpr (Or.inr (List.mem_singleton.mpr rfl)),
                (hg_iff x).mpr hr⟩
          · rintro ⟨g, hg, hx⟩
            rcases List.mem_append.mp hg with hg | hg
            · exact Or.inl ((hcov x).mpr ⟨g, hg, hx⟩)
            · rcases List.mem_singleton.mp hg with rfl
              exact Or.inr ((hg_iff x).mp hx)
        have hgs' : ∀ g ∈ groups ++ [(dfsLoop adj visited [n] []).2], ∃ s,
            ∀ x, x ∈ g ↔ Reach adj s x := by
          intro g hg
          rcases List.mem_append.mp hg with hg | hg
          · exact hgs g hg
          · rcases List.mem_singleton.mp hg with rfl
            exact ⟨n, hg_iff⟩
        have hdisj' : List.Pairwise DisjG
            (groups ++ [(dfsLoop adj visited [n] []).2]) := by
          rw [List.pairwise_append]
          refine ⟨hdisj, List.pairwise_singleton _ _, ?_⟩
          intro g hg g' hg' x hx
          rcases List.mem_singleton.mp hg' with rfl
          intro hx'
          exact hreach_nv x ((hg_iff x).mp hx') ((hcov x).mpr ⟨g, hg, hx⟩)
        have hmem' : ∀ g ∈ groups ++ [(dfsLoop adj visited [n] []).2],
            ∀ x ∈ g, x ∈ adjKeys adj := by
          intro g hg x hx
          rcases List.mem_append.mp hg with hg | hg
          · exact hmem g hg x hx
          · rcases List.mem_singleton.mp hg with rfl
            exact reach_mem_keys hsym ((hg_iff x).mp hx)
              (hkeys n (List.mem_cons_self _ _))
        obtain ⟨c1, c2, c3, c4, c5⟩ := ih _ _ hclo' hcov' hgs' hdisj' hmem'
          (fun k hk => hkeys k (List.mem_cons_of_mem _ hk))
        refine ⟨c1, c2, c3, ?_, c5⟩
        intro k hk
        rcases List.mem_cons.mp hk with rfl | hk
        · exact findGroups_visited_mono adj rest _ _ k
            (dfsLoop_stack_sub adj visited [k] [] k (List.mem_cons_self _ _))
        · exact c4 k hk

/-- The groups of a run: they partition the key set of the wire table, and
each one is exactly the wire-connected component of any of its members. -/
theorem groupsOf_spec (c : Canvas) :
    (∀ x, (∃ g ∈ groupsOf c, x ∈ g) ↔ x ∈ adjKeys (adjOf c)) ∧
      (∀ g ∈ groupsOf c, ∃ s, ∀ x, x ∈ g ↔ Reach (adjOf c) s x) ∧
      List.Pairwise DisjG (groupsOf c) := by
  have hsym : SymAdj (adjOf c) := (buildWireAdj_inv c (stRun c)).1
  obtain ⟨c1, c2, c3, c4, c5⟩ := findGroups_sound (adjOf c) hsym
    (adjKeys (adjOf c)) [] []
    (by intro x hx; cases hx)
    (by intro x; constructor
        · intro hx; cases hx
        · rintro ⟨g, hg, -⟩; cases hg)
    (by intro g hg; cases hg)
    List.Pairwise.nil
    (by intro g hg; cases hg)
    (fun k hk => hk)
  refine ⟨?_, c2, c3⟩
  intro x
  constructor
  · rintro ⟨g, hg, hx⟩
    exact c5 g hg x hx
  · intro hx
    exact (c1 x).mp (c4 x hx)

/-- Membership in a group is wire-reachability from any of its members. -/
theorem group_mem_iff_reach (c : Canvas) {g : List Nat} (hg : g ∈ groupsOf c)
    {a : Nat} (ha : a ∈ g) : ∀ x, x ∈ g ↔ Reach (adjOf c) a x := by
  have hsym : SymAdj (adjOf c) := (buildWireAdj_inv c (stRun c)).1
  obtain ⟨s, hs⟩ := (groupsOf_spec c).2.1 g hg
  intro x
  rw [hs x]
  have hsa : Reach (adjOf c) s a := (hs a).mp ha
  constructor
  · intro hsx
    exact Relation.ReflTransGen.trans (reach_symm hsym hsa) hsx
  · intro hax
    exact Relation.ReflTransGen.trans hsa hax

/-- Two groups of a pairwise-disjoint family sharing an element are equal. -/
theorem mem_unique_of_pairwise_disj :
    ∀ {l : List (List Nat)}, List.Pairwise DisjG l →
      ∀ {g1 g2 : List Nat} {x : Nat}, g1 ∈ l → g2 ∈ l →
        x ∈ g1 → x ∈ g2 → g1 = g2 := by
  intro l
  induction l with
  | nil => intro _ g1 g2 x h1; cases h1
  | cons a t ih =>
      intro hl g1 g2 x h1 h2 hx1 hx2
      have hhead : ∀ g' ∈ t, DisjG a g' :=
        fun g' hg' => List.rel_of_pairwise_cons hl hg'
      cases List.mem_cons.mp h1 with
      | inl he1 =>
          cases List.mem_cons.mp h2 with
          | inl he2 => rw [he1, he2]
          | inr h2t =>
              subst he1
              exact absurd hx2 (hhead g2 h2t x hx1)
      | inr h1t =>
          cases List.mem_cons.mp h2 with
          | inl he2 =>
              subst he2
              exact absurd hx1 (hhead g1 h1t x hx2)
          | inr h2t => exact ih (List.Pairwise.of_cons hl) h1t h2t hx1 hx2

/-! ### The merge table -/

theorem mlookup_cons (kv : Nat × Nat) (m : List (Nat × Nat)) (n : Nat) :
    mlookup (kv :: m) n = if kv.1 = n then some kv.2 else mlookup m n := rfl

theorem mlookup_insertGroup (v : Nat) :
    ∀ (g : List Nat) (m : List (Nat × Nat)) (n : Nat),
      mlookup (insertGroup m g v) n = if n ∈ g then some v else mlookup m n := by
  intro g
  induction g with
  | nil => intro m n; simp [insertGroup]
  | cons a g' ih =>
      intro m n
      have he : insertGroup m (a :: g') v = insertGroup ((a, v) :: m) g' v := rfl
      rw [he, ih]
      by_cases hn : n ∈ g'
      · rw [if_pos hn, if_pos (List.mem_cons_of_mem _ hn)]
      · rw [if_neg hn]
        by_cases ha : a = n
        · subst ha
          rw [if_pos (List.mem_cons_self _ _), mlookup_cons, if_pos rfl]
        · have hnm : n ∉ a :: g' := by
            intro h
            rcases List.mem_cons.mp h with h | h
            · exact ha h.symm
            · exact hn h
          rw [if_neg hnm, mlookup_cons, if_neg ha]

theorem mergeStep1_fold_lookup :
    ∀ (groups : List (List Nat)) (m : List (Nat × Nat)) (n : Nat),
      mlookup (groups.foldl mergeStep1f m) n =
        if ∃ g ∈ groups, 0 ∈ g ∧ n ∈ g then some 0 else mlookup m n := by
  intro groups
  induction groups with
  | nil =>
      intro m n
      simp
  | cons g gs ih =>
      intro m n
      rw [List.foldl_cons, ih]
      have hany : (g.any (fun nid => decide (nid = 0)) = true) ↔ (0 : Nat) ∈ g := by
        simp [List.any_eq_true]
      by_cases h0 : (0 : Nat) ∈ g
      · rw [show mergeStep1f m g = insertGroup m g 0 by
          unfold mergeStep1f; rw [if_pos (hany.mpr h0)]]
        rw [mlookup_insertGroup]
        by_cases hex : ∃ g' ∈ gs, 0 ∈ g' ∧ n ∈ g'
        · rw [if_pos hex]
          obtain ⟨g', hg', h⟩ := hex
          rw [if_pos ⟨g', List.mem_cons_of_mem _ hg', h⟩]
        · rw [if_neg hex]
          by_cases hn : n ∈ g
          · rw [if_pos hn, if_pos ⟨g, List.mem_cons_self _ _, h0, hn⟩]
          · rw [if_neg hn, if_neg ?_]
            rintro ⟨g', hg', h0', hn'⟩
            rcases List.mem_cons.mp hg' with rfl | hg'
            · exact hn hn'
            · exact hex ⟨g', hg', h0', hn'⟩
      · rw [show mergeStep1f m g = m by
          unfold mergeStep1f; rw [if_neg (fun hb => h0 (hany.mp hb))]]
        by_cases hex : ∃ g' ∈ gs, 0 ∈ g' ∧ n ∈ g'
        · rw [if_pos hex]
          obtain ⟨g', hg', h⟩ := hex
          rw [if_pos ⟨g', List.mem_cons_of_mem _ hg', h⟩]
        · rw [if_neg hex, if_neg ?_]
          rintro ⟨g', hg', h0', hn'⟩
          rcases List.mem_cons.mp hg' with rfl | hg'
          · exact h0 h0'
          · exact hex ⟨g', hg', h0', hn'⟩

theorem mergeStep1_lookup (groups : List (List Nat)) (n : Nat) :
    mlookup (mergeStep1 groups) n =
      if ∃ g ∈ groups, 0 ∈ g ∧ n ∈ g then some 0 else none := by
  unfold mergeStep1
  rw [mergeStep1_fold_lookup]
  rfl

theorem mergeStep2_fold :
    ∀ (groups : List (List Nat)) (m : List (Nat × Nat)) (ctr : Nat),
      1 ≤ ctr →
      (∀ g ∈ groups, ((∃ x ∈ g, mlookup m x = some 0) ↔ (0 : Nat) ∈ g)) →
      List.Pairwise DisjG groups →
      ((groups.foldl mergeStep2f (m, ctr)).2 =
          ctr + (groups.filter (fun g => decide ((0 : Nat) ∉ g))).length ∧
        (∀ n, (∀ g ∈ groups, n ∉ g) →
          mlookup (groups.foldl mergeStep2f (m, ctr)).1 n = mlookup m n) ∧
        (∀ g ∈ groups, (0 : Nat) ∈ g → ∀ n ∈ g,
          mlookup (groups.foldl mergeStep2f (m, ctr)).1 n = mlookup m n) ∧
        (∀ i (hi : i < (groups.filter (fun g => decide ((0 : Nat) ∉ g))).length),
          ∀ n ∈ (groups.filter (fun g => decide ((0 : Nat) ∉ g))).get ⟨i, hi⟩,
            mlookup (groups.foldl mergeStep2f (m, ctr)).1 n = some (ctr + i))) := by
  intro groups
  induction groups with
  | nil =>
      intro m ctr hctr hiff hdisj
      refine ⟨by simp, fun n _ => rfl, fun g hg => absurd hg (by simp), ?_⟩
      intro i hi
      simp at hi
  | cons g gs ih =>
      intro m ctr hctr hiff hdisj
      have hdisj_head : ∀ g' ∈ gs, DisjG g g' :=
        fun g' hg' => List.rel_of_pairwise_cons hdisj hg'
      have hdisj_tail : List.Pairwise DisjG gs := List.Pairwise.of_cons hdisj
      have hany : (g.any (fun n => decide (mlookup m n = some 0)) = true) ↔
          ∃ x ∈ g, mlookup m x = some 0 := by
        simp [List.any_eq_true]
      by_cases h0 : (0 : Nat) ∈ g
      · -- ground group: skipped
        rw [List.foldl_cons, show mergeStep2f (m, ctr) g = (m, ctr) by
          unfold mergeStep2f
          rw [if_pos (hany.mpr ((hiff g (List.mem_cons_self _ _)).mpr h0))]]
        obtain ⟨c1, c2, c3, c4⟩ := ih m ctr hctr
          (fun g' hg' => hiff g' (List.mem_cons_of_mem _ hg')) hdisj_tail
        have hfil : (g :: gs).filter (fun g => decide ((0 : Nat) ∉ g)) =
            gs.filter (fun g => decide ((0 : Nat) ∉ g)) := by
          rw [List.filter_cons_of_neg]
          simp [h0]
        refine ⟨by rw [hfil]; exact c1, ?_, ?_, ?_⟩
        · intro n hn
          exact c2 n (fun g' hg' => hn g' (List.mem_cons_of_mem _ hg'))
        · intro g' hg' h0' n hn
          rcases List.mem_cons.mp hg' with rfl | hg'
          · exact c2 n (fun g'' hg'' => hdisj_head g'' hg'' n hn)
          · exact c3 g' hg' h0' n hn
        · intro i hi n hn
          rw [List.get_of_eq hfil ⟨i, hi⟩] at hn
          exact c4 i (by rw [← hfil]; exact hi) n hn
      · -- non-ground group: assigned ctr, counter incremented
        have hnotex : ¬ ∃ x ∈ g, mlookup m x = some 0 :=
          fun h => h0 ((hiff g (List.mem_cons_self _ _)).mp h)
        rw [List.foldl_cons, show mergeStep2f (m, ctr) g =
            (insertGroup m g ctr, ctr + 1) by
          unfold mergeStep2f
          rw [if_neg (fun hb => hnotex (hany.mp hb))]]
        have hiff' : ∀ g' ∈ gs,
            ((∃ x ∈ g', mlookup (insertGroup m g ctr) x = some 0) ↔
              (0 : Nat) ∈ g') := by
          intro g' hg'
          constructor
          · rintro ⟨x, hx, hlk⟩
            rw [mlookup_insertGroup] at hlk
            by_cases hxg : x ∈ g
            · rw [if_pos hxg] at hlk
              cases hlk
              omega
            · rw [if_neg hxg] at hlk
              exact (hiff g' (List.mem_cons_of_mem _ hg')).mp ⟨x, hx, hlk⟩
          · intro h0'
            obtain ⟨x, hx, hlk⟩ :=
              (hiff g' (List.mem_cons_of_mem _ hg')).mpr h0'
            refine ⟨x, hx, ?_⟩
            rw [mlookup_insertGroup,
              if_neg (fun hxg => hdisj_head g' hg' x hxg hx)]
            exact hlk
        obtain ⟨c1, c2, c3, c4⟩ := ih (insertGroup m g ctr) (ctr + 1)
          (by omega) hiff' hdisj_tail
        have hfil : (g :: gs).filter (fun g => decide ((0 : Nat) ∉ g)) =
            g :: gs.filter (fun g => decide ((0 : Nat) ∉ g)) := by
          rw [List.filter_cons_of_pos]
          simp [h0]
        refine ⟨?_, ?_, ?_, ?_⟩
        · rw [hfil, c1]
          simp
          omega
        · intro n hn
          rw [c2 n (fun g' hg' => hn g' (List.mem_cons_of_mem _ hg')),
            mlookup_insertGroup, if_neg (hn g (List.mem_cons_self _ _))]
        · intro g' hg' h0' n hn
          rcases List.mem_cons.mp hg' with rfl | hg'
          · exact absurd h0' h0
          · rw [c3 g' hg' h0' n hn, mlookup_insertGroup,
              if_neg (fun hxg => hdisj_head g' hg' n hxg hn)]
        · intro i hi n hn
          rw [List.get_of_eq hfil ⟨i, hi⟩] at hn
          rcases i with _ | i
          · have hn' : n ∈ g := by simpa using hn
            rw [c2 n (fun g' hg' hng' => hdisj_head g' hg' n hn' hng'),
              mlookup_insertGroup, if_pos hn']
            rfl
          · have hi' : i <
                (gs.filter (fun g => decide ((0 : Nat) ∉ g))).length := by
              have hs : Nat.succ i <
                  (g :: gs.filter (fun g => decide ((0 : Nat) ∉ g))).length := by
                rw [← hfil]; exact hi
              simpa using hs
            have hn2 : n ∈ (gs.filter (fun g => decide ((0 : Nat) ∉ g))).get
                ⟨i, hi'⟩ := by
              simpa using hn
            rw [c4 i hi' n hn2]
            congr 1
            omega

theorem mergeStep3f_some {gks : List Pt} {acc : List (Nat × Nat) × Nat}
    {kn : Pt × Nat} {v : Nat} (hm : mlookup acc.1 kn.2 = some v) :
    mergeStep3f gks acc kn = acc := by
  unfold mergeStep3f
  rw [hm]

theorem mergeStep3f_none_ng {gks : List Pt} {acc : List (Nat × Nat) × Nat}
    {kn : Pt × Nat} (hm : mlookup acc.1 kn.2 = none) (hk : kn.1 ∉ gks) :
    mergeStep3f gks acc kn = ((kn.2, acc.2) :: acc.1, acc.2 + 1) := by
  unfold mergeStep3f
  rw [hm, if_neg hk]

theorem mergeStep3_fold (gks : List Pt) :
    ∀ (nodesL : List (Pt × Nat)) (m : List (Nat × Nat)) (next : Nat),
      ((nodesL.map Prod.snd).Pairwise (· < ·)) →
      (∀ kn ∈ nodesL, kn.1 ∉ gks) →
      ((mergeStep3 nodesL gks m next).2 =
          next + (nodesL.filter
            (fun kn => decide (mlookup m kn.2 = none))).length ∧
        (∀ n, mlookup m n ≠ none →
          mlookup (mergeStep3 nodesL gks m next).1 n = mlookup m n) ∧
        (∀ j (hj : j < (nodesL.filter
            (fun kn => decide (mlookup m kn.2 = none))).length),
          mlookup (mergeStep3 nodesL gks m next).1
              ((nodesL.filter (fun kn => decide (mlookup m kn.2 = none))).get
                ⟨j, hj⟩).2 = some (next + j)) ∧
        (∀ n v, mlookup (mergeStep3 nodesL gks m next).1 n = some v →
          mlookup m n = some v ∨ (next ≤ v ∧ n ∈ nodesL.map Prod.snd)) ∧
        (∀ kn ∈ nodesL, mlookup (mergeStep3 nodesL gks m next).1 kn.2 ≠ none)) := by
  intro nodesL
  induction nodesL with
  | nil =>
      intro m next hpw hgk
      refine ⟨by simp [mergeStep3], fun n _ => rfl, ?_, ?_, ?_⟩
      · intro j hj
        simp at hj
      · intro n v hv
        exact Or.inl hv
      · intro kn hkn
        cases hkn
  | cons kn rest ih =>
      intro m next hpw hgk
      have hpw_tail : (rest.map Prod.snd).Pairwise (· < ·) := by
        rw [List.map_cons] at hpw
        exact List.Pairwise.of_cons hpw
      have hlt_head : ∀ kn' ∈ rest, kn.2 < kn'.2 := by
        intro kn' hkn'
        rw [List.map_cons] at hpw
        exact List.rel_of_pairwise_cons hpw
          (List.mem_map.mpr ⟨kn', hkn', rfl⟩)
      have hgk_tail : ∀ kn' ∈ rest, kn'.1 ∉ gks :=
        fun kn' hkn' => hgk kn' (List.mem_cons_of_mem _ hkn')
      rcases hm : mlookup m kn.2 with _ | v
      · -- fresh id: the else branch (the key is never a ground key)
        have hstep : mergeStep3 (kn :: rest) gks m next =
            mergeStep3 rest gks ((kn.2, next) :: m) (next + 1) := by
          unfold mergeStep3
          rw [List.foldl_cons,
            mergeStep3f_none_ng hm (hgk kn (List.mem_cons_self _ _))]
        have hlk_cons : ∀ kn' ∈ rest,
            mlookup ((kn.2, next) :: m) kn'.2 = mlookup m kn'.2 := by
          intro kn' hkn'
          rw [mlookup_cons, if_neg (Nat.ne_of_lt (hlt_head kn' hkn'))]
        have hfil : rest.filter
            (fun kn' => decide (mlookup ((kn.2, next) :: m) kn'.2 = none)) =
            rest.filter (fun kn' => decide (mlookup m kn'.2 = none)) := by
          apply List.filter_congr
          intro kn' hkn'
          rw [hlk_cons kn' hkn']
        have hfil_head : (kn :: rest).filter
            (fun kn' => decide (mlookup m kn'.2 = none)) =
            kn :: rest.filter (fun kn' => decide (mlookup m kn'.2 = none)) := by
          rw [List.filter_cons_of_pos]
          simp [hm]
        obtain ⟨c1, c2, c3, c4, c5⟩ := ih ((kn.2, next) :: m) (next + 1)
          hpw_tail hgk_tail
        rw [hfil] at c1 c3
        refine ⟨?_, ?_, ?_, ?_, ?_⟩
        · rw [hstep, c1, hfil_head]
          simp
          omega
        · intro n hn
          have hne : kn.2 ≠ n := by
            intro he
            rw [he] at hm
            exact hn hm
          rw [hstep, c2 n (by rw [mlookup_cons, if_neg hne]; exact hn),
            mlookup_cons, if_neg hne]
        · intro j hj
          rw [List.get_of_eq hfil_head ⟨j, hj⟩]
          rcases j with _ | j
          · have hget : ((kn :: rest.filter
                (fun kn' => decide (mlookup m kn'.2 = none))).get
                ⟨0, by simp⟩) = kn := rfl
            rw [hstep, hget]
            have hself : mlookup ((kn.2, next) :: m) kn.2 = some next := by
              rw [mlookup_cons, if_pos rfl]
            rw [c2 kn.2 (by rw [hself]; exact fun h => by cases h), hself]
            rfl
          · have hj' : j < (rest.filter
                (fun kn' => decide (mlookup m kn'.2 = none))).length := by
              have hs : Nat.succ j < (kn :: rest.filter
                  (fun kn' => decide (mlookup m kn'.2 = none))).length := by
                rw [← hfil_head]; exact hj
              simpa using hs
            have hget : ((kn :: rest.filter
                (fun kn' => decide (mlookup m kn'.2 = none))).get
                ⟨Nat.succ j, by simpa using hj'⟩) =
                (rest.filter (fun kn' => decide (mlookup m kn'.2 = none))).get
                  ⟨j, hj'⟩ := rfl
            rw [hstep, hget, c3 j hj']
            congr 1
            omega
        · intro n v hv
          rw [hstep] at hv
          rcases c4 n v hv with hv' | ⟨hle, hmem⟩
          · rw [mlookup_cons] at hv'
            by_cases hne : kn.2 = n
            · rw [if_pos hne] at hv'
              cases hv'
              exact Or.inr ⟨le_refl _, by rw [← hne]; simp⟩
            · rw [if_neg hne] at hv'
              exact Or.inl hv'
          · exact Or.inr ⟨by omega, by simp [hmem]⟩
        · intro kn' hkn'
          rcases List.mem_cons.mp hkn' with rfl | hkn'
          · have hself : mlookup ((kn'.2, next) :: m) kn'.2 = some next := by
              rw [mlookup_cons, if_pos rfl]
            rw [hstep, c2 kn'.2 (by rw [hself]; exact fun h => by cases h), hself]
            exact fun h => by cases h
          · rw [hstep]
            exact c5 kn' hkn'
      · -- already merged: skipped
        have hstep : mergeStep3 (kn :: rest) gks m next =
            mergeStep3 rest gks m next := by
          unfold mergeStep3
          rw [List.foldl_cons, mergeStep3f_some (v := v) hm]
        have hfil_head : (kn :: rest).filter
            (fun kn' => decide (mlookup m kn'.2 = none)) =
            rest.filter (fun kn' => decide (mlookup m kn'.2 = none)) := by
          rw [List.filter_cons_of_neg]
          simp [hm]
        obtain ⟨c1, c2, c3, c4, c5⟩ := ih m next hpw_tail hgk_tail
        refine ⟨?_, ?_, ?_, ?_, ?_⟩
        · rw [hstep, c1, hfil_head]
        · intro n hn
          rw [hstep]
          exact c2 n hn
        · intro j hj
          rw [List.get_of_eq hfil_head ⟨j, hj⟩, hstep]
          exact c3 j (by rw [← hfil_head]; exact hj)
        · intro n v hv
          rw [hstep] at hv
          rcases c4 n v hv with hv' | ⟨hle, hmem⟩
          · exact Or.inl hv'
          · exact Or.inr ⟨hle, by simp [hmem]⟩
        · intro kn' hkn'
          rcases List.mem_cons.mp hkn' with rfl | hkn'
          · rw [hstep, c2 kn'.2 (by rw [hm]; exact fun h => by cases h), hm]
            exact fun h => by cases h
          · rw [hstep]
            exact c5 kn' hkn'

/-! ### The merge table of a run -/

/-- The non-ground groups of a run, in discovery order. -/
def ngsOf (c : Canvas) : List (List Nat) :=
  (groupsOf c).filter (fun g => decide ((0 : Nat) ∉ g))

/-- The isolated node entries of a run: stored node entries whose id never
appeared in the wire graph, in insertion order. -/
def isoOf (c : Canvas) : List (Pt × Nat) :=
  (stRun c).nodes.filter (fun kn => decide (kn.2 ∉ adjKeys (adjOf c)))

theorem merge12_spec (c : Canvas) :
    (merge12Of c).2 = 1 + (ngsOf c).length ∧
      (∀ g ∈ groupsOf c, (0 : Nat) ∈ g → ∀ n ∈ g,
        mlookup (merge12Of c).1 n = some 0) ∧
      (∀ i (hi : i < (ngsOf c).length), ∀ n ∈ (ngsOf c).get ⟨i, hi⟩,
        mlookup (merge12Of c).1 n = some (1 + i)) ∧
      (∀ n, (∀ g ∈ groupsOf c, n ∉ g) → mlookup (merge12Of c).1 n = none) := by
  obtain ⟨-, -, hdisj⟩ := groupsOf_spec c
  have hiff : ∀ g ∈ groupsOf c,
      ((∃ x ∈ g, mlookup (mergeStep1 (groupsOf c)) x = some 0) ↔
        (0 : Nat) ∈ g) := by
    intro g hg
    constructor
    · rintro ⟨x, hx, hlk⟩
      rw [mergeStep1_lookup] at hlk
      by_cases hex : ∃ g' ∈ groupsOf c, 0 ∈ g' ∧ x ∈ g'
      · obtain ⟨g', hg', h0', hx'⟩ := hex
        have := mem_unique_of_pairwise_disj hdisj hg hg' hx hx'
        rw [this]
        exact h0'
      · rw [if_neg hex] at hlk
        cases hlk
    · intro h0
      refine ⟨0, h0, ?_⟩
      rw [mergeStep1_lookup, if_pos ⟨g, hg, h0, h0⟩]
  obtain ⟨c1, c2, c3, c4⟩ := mergeStep2_fold (groupsOf c)
    (mergeStep1 (groupsOf c)) 1 (le_refl 1) hiff hdisj
  refine ⟨c1, ?_, ?_, ?_⟩
  · intro g hg h0 n hn
    rw [show (merge12Of c).1 = ((groupsOf c).foldl mergeStep2f
      (mergeStep1 (groupsOf c), 1)).1 from rfl]
    rw [c3 g hg h0 n hn, mergeStep1_lookup, if_pos ⟨g, hg, h0, hn⟩]
  · intro i hi n hn
    exact c4 i hi n hn
  · intro n hn
    rw [show (merge12Of c).1 = ((groupsOf c).foldl mergeStep2f
      (mergeStep1 (groupsOf c), 1)).1 from rfl]
    rw [c2 n hn, mergeStep1_lookup, if_neg ?_]
    rintro ⟨g, hg, -, hng⟩
    exact hn g hg hng

theorem merge12_none_iff (c : Canvas) (n : Nat) :
    mlookup (merge12Of c).1 n = none ↔ ∀ g ∈ groupsOf c, n ∉ g := by
  obtain ⟨-, h2, h3, h4⟩ := merge12_spec c
  constructor
  · intro hnone g hg hng
    by_cases h0 : (0 : Nat) ∈ g
    · rw [h2 g hg h0 n hng] at hnone
      cases hnone
    · have hgf : g ∈ ngsOf c :=
        List.mem_filter.mpr ⟨hg, by simpa using h0⟩
      obtain ⟨i, hget⟩ := List.mem_iff_get.mp hgf
      have := h3 i.1 i.2 n (by rw [show (ngsOf c).get ⟨i.1, i.2⟩ = g from hget]
                               exact hng)
      rw [this] at hnone
      cases hnone
  · exact h4 n

theorem merge12_none_iff_keys (c : Canvas) (n : Nat) :
    mlookup (merge12Of c).1 n = none ↔ n ∉ adjKeys (adjOf c) := by
  rw [merge12_none_iff]
  obtain ⟨hcov, -, -⟩ := groupsOf_spec c
  constructor
  · intro h hk
    obtain ⟨g, hg, hng⟩ := (hcov n).mpr hk
    exact h g hg hng
  · intro h g hg hng
    exact h ((hcov n).mp ⟨g, hg, hng⟩)

/-- The isolated entries are exactly the node entries still unmapped after
steps 1 and 2. -/
theorem isoOf_eq (c : Canvas) :
    (stRun c).nodes.filter
      (fun kn => decide (mlookup (merge12Of c).1 kn.2 = none)) = isoOf c := by
  unfold isoOf
  apply List.filter_congr
  intro kn _
  have := merge12_none_iff_keys c kn.2
  by_cases h : mlookup (merge12Of c).1 kn.2 = none
  · simp [h, this.mp h]
  · have hk : kn.2 ∈ adjKeys (adjOf c) := by
      by_contra hk
      exact h (this.mpr hk)
    simp [h, hk]

/-- The step-3 facts of a run, instantiated with the run's invariants. -/
theorem mergeOf_step3 (c : Canvas) :
    ((mergeStep3 (stRun c).nodes (stRun c).ground_keys (merge12Of c).1
        (merge12Of c).2).2 = (merge12Of c).2 + (isoOf c).length ∧
      (∀ n, mlookup (merge12Of c).1 n ≠ none →
        mlookup (mergeOf c) n = mlookup (merge12Of c).1 n) ∧
      (∀ j (hj : j < (isoOf c).length),
        mlookup (mergeOf c) ((isoOf c).get ⟨j, hj⟩).2 =
          some ((merge12Of c).2 + j)) ∧
      (∀ n v, mlookup (mergeOf c) n = some v →
        mlookup (merge12Of c).1 n = some v ∨
          ((merge12Of c).2 ≤ v ∧ n ∈ (stRun c).nodes.map Prod.snd)) ∧
      (∀ kn ∈ (stRun c).nodes, mlookup (mergeOf c) kn.2 ≠ none)) := by
  obtain ⟨-, hinv2, hinv3⟩ := stRun_inv c
  have hgk : ∀ kn ∈ (stRun c).nodes, kn.1 ∉ (stRun c).ground_keys :=
    fun kn hkn => (hinv2 kn hkn).1
  obtain ⟨c1, c2, c3, c4, c5⟩ := mergeStep3_fold (stRun c).ground_keys
    (stRun c).nodes (merge12Of c).1 (merge12Of c).2 hinv3 hgk
  rw [isoOf_eq c] at c1 c3
  exact ⟨c1, c2, c3, c4, c5⟩

/-- Replacing the ground-key set by the empty set does not change step 3
when no stored key is a ground key (the ground branch never fires). -/
theorem mergeStep3_gks_irrel :
    ∀ (nodesL : List (Pt × Nat)) (gks : List Pt) (m : List (Nat × Nat))
      (next : Nat), (∀ kn ∈ nodesL, kn.1 ∉ gks) →
      mergeStep3 nodesL gks m next = mergeStep3 nodesL [] m next := by
  intro nodesL
  induction nodesL with
  | nil => intro gks m next h; rfl
  | cons kn rest ih =>
      intro gks m next h
      have hstep : mergeStep3f gks (m, next) kn = mergeStep3f [] (m, next) kn := by
        unfold mergeStep3f
        rcases mlookup m kn.2 with _ | v
        · rw [if_neg (h kn (List.mem_cons_self _ _)),
            if_neg (List.not_mem_nil kn.1)]
        · rfl
      show (kn :: rest).foldl (mergeStep3f gks) (m, next) =
        (kn :: rest).foldl (mergeStep3f []) (m, next)
      rw [List.foldl_cons, List.foldl_cons, hstep]
      exact ih gks (mergeStep3f [] (m, next) kn).1 (mergeStep3f [] (m, next) kn).2
        (fun kn' hkn' => h kn' (List.mem_cons_of_mem _ hkn'))

/-! ### Ground anchors and the pin snapper -/

theorem manhattan_self (p : Pt) : manhattan p p = 0 := by
  simp [manhattan]

theorem manhattan_eq_zero {a b : Pt} (h : manhattan a b = 0) : a = b := by
  unfold manhattan at h
  have h1 : (a.1 - b.1).natAbs = 0 := by omega
  have h2 : (a.2 - b.2).natAbs = 0 := by omega
  rw [Int.natAbs_eq_zero, sub_eq_zero] at h1 h2
  exact Prod.ext h1 h2

theorem mem_foldl_pins_of_mem_acc :
    ∀ (l : List (CompKind × Pt)) (acc : List Pt) (x : Pt), x ∈ acc →
      x ∈ l.foldl (fun acc kp => acc ++ get_component_pins kp.1 kp.2) acc := by
  intro l
  induction l with
  | nil => intro acc x hx; exact hx
  | cons kp rest ih =>
      intro acc x hx
      exact ih _ x (List.mem_append.mpr (Or.inl hx))

theorem comp_pin_mem_candidates (c : Canvas) :
    ∀ kp ∈ c.components, ∀ pin ∈ get_component_pins kp.1 kp.2,
      pin ∈ candidatePins c := by
  have haux : ∀ (l : List (CompKind × Pt)) (kp : CompKind × Pt), kp ∈ l →
      ∀ pin ∈ get_component_pins kp.1 kp.2, ∀ acc,
        pin ∈ l.foldl (fun acc kp => acc ++ get_component_pins kp.1 kp.2) acc := by
    intro l
    induction l with
    | nil => intro kp hkp; cases hkp
    | cons kp0 rest ih =>
        intro kp hkp pin hpin acc
        rcases List.mem_cons.mp hkp with rfl | hkp
        · exact mem_foldl_pins_of_mem_acc rest _ pin
            (List.mem_append.mpr (Or.inr hpin))
        · exact ih kp hkp pin hpin _
  intro kp hkp pin hpin
  unfold candidatePins
  exact List.mem_append.mpr (Or.inl (haux c.components kp hkp pin hpin []))

theorem gk_foldl_mono :
    ∀ (l : List (CompKind × Pt)) (acc : List Pt × List Pt) (x : Pt),
      x ∈ acc.2 → x ∈ (l.foldl collectStep acc).2 := by
  intro l
  induction l with
  | nil => intro acc x hx; exact hx
  | cons kp rest ih =>
      intro acc x hx
      refine ih _ x ?_
      unfold collectStep
      rcases kp.1 with _ | _ | _ | _ | _ | _ | _ <;>
        first
          | exact hx
          | exact List.mem_append.mpr (Or.inl hx)

theorem ground_anchor_mem_gks (c : Canvas) :
    ∀ kp ∈ c.components, kp.1 = CompKind.ground → kp.2 ∈ groundKeysOf c := by
  have haux : ∀ (l : List (CompKind × Pt)) (kp : CompKind × Pt), kp ∈ l →
      kp.1 = CompKind.ground → ∀ acc, kp.2 ∈ (l.foldl collectStep acc).2 := by
    intro l
    induction l with
    | nil => intro kp hkp; cases hkp
    | cons kp0 rest ih =>
        intro kp hkp hg acc
        rcases List.mem_cons.mp hkp with rfl | hkp
        · refine gk_foldl_mono rest _ kp.2 ?_
          unfold collectStep
          rw [hg]
          exact List.mem_append.mpr (Or.inr (List.mem_singleton.mpr rfl))
        · exact ih kp hkp hg _
  intro kp hkp hg
  exact haux c.components kp hkp hg ([], [])

theorem keyOf_ground_anchor (c : Canvas) (kp : CompKind × Pt)
    (hkp : kp ∈ c.components) (hg : kp.1 = CompKind.ground) :
    keyOf c kp.2 = kp.2 := by
  have hcand : kp.2 ∈ candidatePins c := by
    refine comp_pin_mem_candidates c kp hkp kp.2 ?_
    rw [hg]
    exact List.mem_singleton.mpr rfl
  unfold keyOf
  rcases hf : findNearestPin c kp.2 with _ | q
  · rfl
  · obtain ⟨-, -, hmin⟩ := findNearestPin_some c kp.2 q hf
    have := hmin kp.2 hcand
    rw [manhattan_self] at this
    have hq : q = kp.2 := manhattan_eq_zero (Nat.le_zero.mp this)
    show (if q = ((0 : Int), (0 : Int)) then kp.2 else q) = kp.2
    by_cases h0 : q = ((0 : Int), (0 : Int))
    · rw [if_pos h0]
    · rw [if_neg h0]
      exact hq

/-- Any ground component's pin resolves to raw node 0 through `_get_node`
in any state whose ground keys are those of the canvas. -/
theorem getNode_ground_anchor (c : Canvas) (st : GenState) (b : Bool)
    (hst : st.ground_keys = groundKeysOf c) (kp : CompKind × Pt)
    (hkp : kp ∈ c.components) (hg : kp.1 = CompKind.ground) :
    (getNode c st kp.2 b).1 = some 0 := by
  have hkey : keyOf c kp.2 ∈ st.ground_keys := by
    rw [keyOf_ground_anchor c kp hkp hg, hst]
    exact ground_anchor_mem_gks c kp hkp hg
  rw [getNode_ground c st kp.2 b hkey]

/-- A final node id is 0 exactly when the raw id is wire-reachable to the
ground id 0. -/
theorem mergeOf_zero_iff (c : Canvas) :
    ∀ n f, mlookup (mergeOf c) n = some f →
      (f = 0 ↔ Reach (adjOf c) n 0) := by
  intro n f hf
  obtain ⟨m2ctr, m2g, m2ngs, m2none⟩ := merge12_spec c
  obtain ⟨-, s2, -, s4, -⟩ := mergeOf_step3 c
  rcases hm12 : mlookup (merge12Of c).1 n with _ | v
  · -- n never appeared in the wire graph
    have hnotkeys : n ∉ adjKeys (adjOf c) := (merge12_none_iff_keys c n).mp hm12
    rcases s4 n f hf with hv | ⟨hge, hmem⟩
    · rw [hm12] at hv
      cases hv
    · have hf0 : f ≠ 0 := by
        rw [m2ctr] at hge
        omega
      have hnr : ¬ Reach (adjOf c) n 0 := by
        intro hr
        rcases Relation.ReflTransGen.cases_head hr with hr0 | ⟨b, he, -⟩
        · obtain ⟨kn, hkn, he2⟩ := List.mem_map.mp hmem
          obtain ⟨-, hinv2, -⟩ := stRun_inv c
          have h1 := (hinv2 kn hkn).2.1
          omega
        · exact hnotkeys (edge_mem_adjKeys he)
      exact ⟨fun h => absurd h hf0, fun h => absurd h hnr⟩
  · -- n lies in some wire-connected group
    have hv : mlookup (mergeOf c) n = some v := by
      rw [s2 n (by rw [hm12]; exact fun h => by cases h), hm12]
    have hfv : f = v := by
      have := hf.symm.trans hv
      cases this
      rfl
    obtain ⟨g, hg, hng⟩ : ∃ g ∈ groupsOf c, n ∈ g := by
      by_contra hno
      push_neg at hno
      rw [m2none n hno] at hm12
      cases hm12
    have hreach_iff : ∀ x, x ∈ g ↔ Reach (adjOf c) n x :=
      group_mem_iff_reach c hg hng
    by_cases h0 : (0 : Nat) ∈ g
    · have h12 := m2g g hg h0 n hng
      have hv0 : v = 0 := by
        have := hm12.symm.trans h12
        cases this
        rfl
      refine ⟨fun _ => (hreach_iff 0).mp h0, fun _ => by rw [hfv, hv0]⟩
    · have hgn : g ∈ ngsOf c := List.mem_filter.mpr ⟨hg, by simpa using h0⟩
      obtain ⟨i, hget⟩ := List.mem_iff_get.mp hgn
      have h12 := m2ngs i.1 i.2 n (by
        rw [show (ngsOf c).get ⟨i.1, i.2⟩ = g from hget]
        exact hng)
      have hv0 : v = 1 + i.1 := by
        have := hm12.symm.trans h12
        cases this
        rfl
      have hf0 : f ≠ 0 := by omega
      have hnr : ¬ Reach (adjOf c) n 0 := fun hr => h0 ((hreach_iff 0).mpr hr)
      exact ⟨fun h => absurd h hf0, fun h => absurd h hnr⟩

/-! ### Concrete models used as witnesses -/

/-- A battery whose left pin is wired to a ground anchor. -/
def canvasA : Canvas :=
  ⟨[(battery, (0, 0)), (ground, (-100, 0))], [((-30, 0), (-100, 0))]⟩

/-- A lone resistor, wired to nothing. -/
def canvasLoneR : Canvas := ⟨[(resistor, (0, 0))], []⟩

/-- A resistor whose two pins are joined by one wire. -/
def canvasShort : Canvas := ⟨[(resistor, (0, 0))], [((-30, 0), (30, 0))]⟩

/-- A resistor whose left pin sits exactly on an unwired ground anchor. -/
def canvasGndPin : Canvas :=
  ⟨[(resistor, (0, 0)), (ground, (-30, 0))], []⟩

/-- A single ground anchor placed at the exact origin, so that nearby
queries snap to the falsy point `(0, 0)`. -/
def canvasOrigin : Canvas := ⟨[(ground, (0, 0))], []⟩

/-- A caller-supplied value map with no overrides. -/
def defaultValues : CompValues := ⟨none, none, none, none⟩

/-- An arbitrary starting generator state. -/
def st0 : GenState := ⟨[], 1, [], []⟩

/-- Evaluation of the traversal on the concrete models (the traversal is
defined by well-founded recursion, so closed instances are computed with
its equation lemmas rather than by kernel reduction). -/
theorem groupsOf_canvasA : groupsOf canvasA = [[1, 0]] := by
  have hadj : adjOf canvasA = [(1, [0]), (0, [1])] := by decide
  unfold groupsOf
  rw [hadj]
  simp [findGroups, dfsLoop_cons_new, dfsLoop_cons_mem, dfsLoop_nil, nbrs,
    adjKeys]

theorem mergeOf_canvasA : mergeOf canvasA = [(2, 1), (0, 0), (1, 0)] := by
  unfold mergeOf merge12Of
  rw [groupsOf_canvasA]
  decide

theorem groupsOf_canvasShort : groupsOf canvasShort = [[1, 2]] := by
  have hadj : adjOf canvasShort = [(1, [2]), (2, [1])] := by decide
  unfold groupsOf
  rw [hadj]
  simp [findGroups, dfsLoop_cons_new, dfsLoop_cons_mem, dfsLoop_nil, nbrs,
    adjKeys]

theorem mergeOf_canvasShort : mergeOf canvasShort = [(2, 1), (1, 1)] := by
  unfold mergeOf merge12Of
  rw [groupsOf_canvasShort]
  decide

theorem groupsOf_canvasGndPin : groupsOf canvasGndPin = [] := by
  have hadj : adjOf canvasGndPin = [] := by decide
  unfold groupsOf
  rw [hadj]
  rfl

theorem mergeOf_canvasGndPin : mergeOf canvasGndPin = [(1, 1)] := by
  unfold mergeOf merge12Of
  rw [groupsOf_canvasGndPin]
  decide

theorem groupsOf_canvasLoneR : groupsOf canvasLoneR = [] := by
  have hadj : adjOf canvasLoneR = [] := by decide
  unfold groupsOf
  rw [hadj]
  rfl

theorem mergeOf_canvasLoneR : mergeOf canvasLoneR = [(2, 2), (1, 1)] := by
  unfold mergeOf merge12Of
  rw [groupsOf_canvasLoneR]
  decide

/-! ### The claims -/

/-- C1: For every generation run, ground pins resolve to final node 0, and
no non-ground pin resolves to final node 0 unless it is wire-connected
(directly or transitively) to a ground pin.  Formalised over the run's
tables: every ground component's pin gets raw node id 0 from `_get_node`,
and the final merge table sends a raw id to 0 exactly when that id is
wire-reachable (reflexively-transitively, so the ground id itself counts)
to the ground id 0 in the run's wire graph.  In particular a pin whose
final node is 0 is wire-connected to a ground pin, and a pin not
wire-connected to ground never resolves to 0. -/
theorem spec_C1 (c : Canvas) :
    (∀ kp ∈ c.components, kp.1 = CompKind.ground →
        (getNode c (stRun c) kp.2 false).1 = some 0) ∧
      (∀ n f, mlookup (mergeOf c) n = some f →
        (f = 0 ↔ Reach (adjOf c) n 0)) := by
  constructor
  · intro kp hkp hg
    exact getNode_ground_anchor c (stRun c) false (stRun_ground_keys c) kp hkp hg
  · exact mergeOf_zero_iff c

theorem spec_C1_witness :
    (getNode canvasA (stRun canvasA) ((-100 : Int), (0 : Int)) false).1 =
        some 0 ∧
      ((0 : Nat) = 0 ↔ Reach (adjOf canvasA) 1 0) :=
  ⟨(spec_C1 canvasA).1 (ground, ((-100 : Int), (0 : Int))) (by decide) rfl,
    (spec_C1 canvasA).2 1 0 (by rw [mergeOf_canvasA]; decide)⟩

/-- C10: Throughout every generation run, the nodes table never contains a
ground-anchor key and every raw node id stored in it is positive (0 is only
produced by the ground-key early return, never stored); consequently the
ground branch of the isolated-node merge step can never fire — replacing
the ground-key set by the empty set leaves step 3 unchanged. -/
theorem spec_C10 (c : Canvas) :
    (∀ kn ∈ (stRun c).nodes, kn.1 ∉ (stRun c).ground_keys ∧ 1 ≤ kn.2) ∧
      mergeStep3 (stRun c).nodes (stRun c).ground_keys (merge12Of c).1
          (merge12Of c).2 =
        mergeStep3 (stRun c).nodes [] (merge12Of c).1 (merge12Of c).2 := by
  obtain ⟨-, hinv2, -⟩ := stRun_inv c
  refine ⟨fun kn hkn => ⟨(hinv2 kn hkn).1, (hinv2 kn hkn).2.1⟩, ?_⟩
  exact mergeStep3_gks_irrel _ _ _ _ (fun kn hkn => (hinv2 kn hkn).1)

theorem spec_C10_witness :
    ((((-30 : Int), (0 : Int)), 1).1 ∉ (stRun canvasLoneR).ground_keys ∧
        1 ≤ ((((-30 : Int), (0 : Int)), 1) : Pt × Nat).2) ∧
      mergeStep3 (stRun canvasLoneR).nodes (stRun canvasLoneR).ground_keys
          (merge12Of canvasLoneR).1 (merge12Of canvasLoneR).2 =
        mergeStep3 (stRun canvasLoneR).nodes [] (merge12Of canvasLoneR).1
          (merge12Of canvasLoneR).2 :=
  ⟨(spec_C10 canvasLoneR).1 (((-30 : Int), (0 : Int)), 1) (by decide),
    (spec_C10 canvasLoneR).2⟩

/-- C2 counterexample: the claim says merge lookups in the serializer never
fail, but on a canvas where a resistor pin sits exactly on a ground anchor
that no wire touches, the pin resolves to raw id 0 while the merge table
has no entry for 0 (step 1 only maps ids of wire groups and step 3 only
maps stored positive ids), so `merge[0]` raises `KeyError` and generation
fails. -/
theorem spec_C2_counterexample :
    (generateNetlist canvasGndPin defaultValues st0).1 =
      Except.error NetlistError.keyError := by
  rw [generateNetlist_eq]
  show serResult canvasGndPin defaultValues = _
  unfold serResult
  rw [mergeOf_canvasGndPin]
  rfl

/-- C2 (amended): For every generation run, the merge table is total over
all raw node ids stored in the nodes table (each maps to exactly one final
id), and raw id 0 is in the merge table — mapped to 0 — whenever 0 appears
in the wire graph; a serializer lookup can only fail for a pin resolving
to raw id 0 when no wire endpoint resolves to ground. -/
theorem spec_C2 (c : Canvas) :
    (∀ kn ∈ (stRun c).nodes, ∃ f, mlookup (mergeOf c) kn.2 = some f) ∧
      ((0 : Nat) ∈ adjKeys (adjOf c) → mlookup (mergeOf c) 0 = some 0) := by
  obtain ⟨-, s2, -, -, s5⟩ := mergeOf_step3 c
  constructor
  · intro kn hkn
    rcases h : mlookup (mergeOf c) kn.2 with _ | f
    · exact absurd h (s5 kn hkn)
    · exact ⟨f, rfl⟩
  · intro h0
    obtain ⟨hcov, -, -⟩ := groupsOf_spec c
    obtain ⟨g, hg, hg0⟩ := (hcov 0).mpr h0
    obtain ⟨-, m2g, -, -⟩ := merge12_spec c
    have h12 : mlookup (merge12Of c).1 0 = some 0 := m2g g hg hg0 0 hg0
    rw [s2 0 (by rw [h12]; exact fun h => by cases h), h12]

theorem spec_C2_witness :
    (∃ f, mlookup (mergeOf canvasA)
        ((((-30 : Int), (0 : Int)), 1) : Pt × Nat).2 = some f) ∧
      mlookup (mergeOf canvasA) 0 = some 0 :=
  ⟨(spec_C2 canvasA).1 (((-30 : Int), (0 : Int)), 1) (by decide),
    (spec_C2 canvasA).2 (by decide)⟩

/-- C4: For every generation run, the node merger maps every member of a
wire-connected group containing node 0 to final id 0; every group without
a ground member gets a single fresh positive integer shared by all its
members, with the counter starting at 1 and incrementing once per group
(the i-th non-ground group, 0-based, gets id i+1); and every raw node id
absent from the wire graph gets an individual assignment, in node-table
insertion order: 0 if its originating key is a ground anchor, otherwise
the fresh singleton id k+1+j where k is the number of non-ground groups
and j the entry's position among the isolated entries. -/
theorem spec_C4 (c : Canvas) :
    (∀ g ∈ groupsOf c, (0 : Nat) ∈ g → ∀ n ∈ g,
        mlookup (mergeOf c) n = some 0) ∧
      (∀ i (hi : i < (ngsOf c).length), ∀ n ∈ (ngsOf c).get ⟨i, hi⟩,
        mlookup (mergeOf c) n = some (i + 1)) ∧
      (∀ j (hj : j < (isoOf c).length),
        (((isoOf c).get ⟨j, hj⟩).1 ∈ (stRun c).ground_keys →
          mlookup (mergeOf c) ((isoOf c).get ⟨j, hj⟩).2 = some 0) ∧
        (((isoOf c).get ⟨j, hj⟩).1 ∉ (stRun c).ground_keys →
          mlookup (mergeOf c) ((isoOf c).get ⟨j, hj⟩).2 =
            some ((ngsOf c).length + 1 + j))) := by
  obtain ⟨m2ctr, m2g, m2ngs, -⟩ := merge12_spec c
  obtain ⟨-, s2, s3, -, -⟩ := mergeOf_step3 c
  refine ⟨?_, ?_, ?_⟩
  · intro g hg h0 n hn
    have h12 := m2g g hg h0 n hn
    rw [s2 n (by rw [h12]; exact fun h => by cases h), h12]
  · intro i hi n hn
    have h12 := m2ngs i hi n hn
    rw [s2 n (by rw [h12]; exact fun h => by cases h), h12]
    congr 1
    omega
  · intro j hj
    constructor
    · intro hgk
      obtain ⟨-, hinv2, -⟩ := stRun_inv c
      have hmem : ((isoOf c).get ⟨j, hj⟩) ∈ (stRun c).nodes :=
        List.mem_of_mem_filter (List.get_mem _ _ _)
      exact absurd hgk ((hinv2 _ hmem).1)
    · intro _
      rw [s3 j hj, m2ctr]
      congr 1
      omega

theorem spec_C4_witness :
    mlookup (mergeOf canvasA) 1 = some 0 ∧
      mlookup (mergeOf canvasA)
          ((isoOf canvasA).get ⟨0, by decide⟩).2 =
        some ((ngsOf canvasA).length + 1 + 0) :=
  ⟨(spec_C4 canvasA).1 [1, 0] (by rw [groupsOf_canvasA]; decide) (by decide) 1
      (by decide),
    ((spec_C4 canvasA).2.2 0 (by decide)).2 (by decide)⟩

/-- C6: For every query point, the pin snapper returns a candidate
(component pin or wire endpoint) whose Manhattan distance to the point is
strictly less than the tolerance of 50 and minimal among all candidates,
and returns none when no candidate is strictly within tolerance. -/
theorem spec_C6 (c : Canvas) (p : Pt) :
    (∀ q, findNearestPin c p = some q →
        q ∈ candidatePins c ∧ manhattan q p < snapThreshold ∧
          ∀ r ∈ candidatePins c, manhattan q p ≤ manhattan r p) ∧
      (findNearestPin c p = none →
        ∀ r ∈ candidatePins c, snapThreshold ≤ manhattan r p) :=
  ⟨fun q h => findNearestPin_some c p q h, findNearestPin_none c p⟩

theorem spec_C6_witness :
    ((-30 : Int), (0 : Int)) ∈ candidatePins canvasLoneR ∧
      manhattan ((-30 : Int), (0 : Int)) ((0 : Int), (0 : Int)) < snapThreshold ∧
      ∀ r ∈ candidatePins canvasLoneR,
        manhattan ((-30 : Int), (0 : Int)) ((0 : Int), (0 : Int)) ≤
          manhattan r ((0 : Int), (0 : Int)) :=
  (spec_C6 canvasLoneR ((0 : Int), (0 : Int))).1 ((-30 : Int), (0 : Int))
    (by decide)

/-- C5: For every point given to the node assigner: the point is first
canonicalized through the pin snapper into the key `keyOf` — the snapped
coordinate when a snap is found, except that a snap equal to the exact
origin `(0, 0)` is discarded by the source's `if snap:` truthiness test
(PyQt5 `QPoint.__bool__` is `not isNull()`) so the raw coordinate is kept,
as it also is when no snap is found (first conjunct group).  Then a key
that is a known ground anchor returns node 0 immediately; otherwise, if
some already-assigned key lies within grid-size tolerance on both axes
independently (per-axis comparison), the first such key's existing id is
returned; otherwise, when creation is enabled, a new sequential id is
allocated from the shared counter (which `generate_netlist` resets to 1,
as the last conjunct records), and when creation is disabled the result
is none. -/
theorem spec_C5 (c : Canvas) (st : GenState) (p : Pt) (create : Bool) :
    ((findNearestPin c p = none → keyOf c p = p) ∧
      (findNearestPin c p = some ((0 : Int), (0 : Int)) → keyOf c p = p) ∧
      (∀ s, findNearestPin c p = some s → s ≠ ((0 : Int), (0 : Int)) →
        keyOf c p = s)) ∧
    (keyOf c p ∈ st.ground_keys → getNode c st p create = (some 0, st)) ∧
      (keyOf c p ∉ st.ground_keys →
        (∀ nid, findCloseNode st.nodes (keyOf c p) = some nid →
            getNode c st p create = (some nid, st) ∧
            ∃ kn ∈ st.nodes, kn.2 = nid ∧
              (kn.1.1 - (keyOf c p).1).natAbs < gridSize ∧
              (kn.1.2 - (keyOf c p).2).natAbs < gridSize) ∧
        (findCloseNode st.nodes (keyOf c p) = none →
          (∀ kn ∈ st.nodes, ¬ ((kn.1.1 - (keyOf c p).1).natAbs < gridSize ∧
              (kn.1.2 - (keyOf c p).2).natAbs < gridSize)) ∧
          (create = true → getNode c st p create =
            (some st.next_node_num,
             { st with nodes := st.nodes ++ [(keyOf c p, st.next_node_num)],
                       next_node_num := st.next_node_num + 1 })) ∧
          (create = false → getNode c st p create = (none, st)))) ∧
      (baseState c).next_node_num = 1 ∧ (baseState c).nodes = [] := by
  refine ⟨⟨?_, ?_, ?_⟩,
    fun h => getNode_ground c st p create h, fun h => ⟨?_, ?_⟩, rfl, rfl⟩
  · intro h
    show (match findNearestPin c p with
      | some s => if s = ((0 : Int), (0 : Int)) then p else s
      | none => p) = p
    rw [h]
  · intro h
    show (match findNearestPin c p with
      | some s => if s = ((0 : Int), (0 : Int)) then p else s
      | none => p) = p
    rw [h]
    exact if_pos rfl
  · intro s h hs
    show (match findNearestPin c p with
      | some s => if s = ((0 : Int), (0 : Int)) then p else s
      | none => p) = s
    rw [h]
    exact if_neg hs
  · intro nid hf
    exact ⟨getNode_found c st p create nid h hf,
      findCloseNode_some st.nodes (keyOf c p) nid hf⟩
  · intro hf
    refine ⟨(findCloseNode_none st.nodes (keyOf c p)).mp hf, ?_, ?_⟩
    · intro hb
      subst hb
      exact getNode_create c st p h hf
    · intro hb
      subst hb
      exact getNode_miss c st p h hf

theorem spec_C5_witness :
    (getNode canvasLoneR (stRun canvasLoneR) ((30 : Int), (0 : Int)) false =
        (some 2, stRun canvasLoneR) ∧
      ∃ kn ∈ (stRun canvasLoneR).nodes, kn.2 = 2 ∧
        (kn.1.1 - (keyOf canvasLoneR ((30 : Int), (0 : Int))).1).natAbs <
          gridSize ∧
        (kn.1.2 - (keyOf canvasLoneR ((30 : Int), (0 : Int))).2).natAbs <
          gridSize) ∧
      keyOf canvasOrigin ((3 : Int), (4 : Int)) = ((3 : Int), (4 : Int)) :=
  ⟨((spec_C5 canvasLoneR (stRun canvasLoneR) ((30 : Int), (0 : Int))
        false).2.2.1 (by decide)).1 2 (by decide),
    (spec_C5 canvasOrigin st0 ((3 : Int), (4 : Int)) false).1.2.1
      (by decide)⟩

/-- C8: For every geometric model, calling `generate_netlist` twice without
modifying the model yields identical output (and identical final state),
because the node tables are fully reset at the start of every generation:
the result does not depend on the incoming generator state at all. -/
theorem spec_C8 (c : Canvas) (values : CompValues) (st1 st2 : GenState) :
    generateNetlist c values st1 = generateNetlist c values st2 ∧
      (generateNetlist c values ((generateNetlist c values st1).2)).1 =
        (generateNetlist c values st1).1 := by
  rw [generateNetlist_eq c values st1, generateNetlist_eq c values st2,
    generateNetlist_eq c values (serResult c values, stRun c).2]
  exact ⟨rfl, rfl⟩

/-- The serializer skips every meter and ground component without touching
the accumulated netlist or the counters. -/
theorem serLoop_skip_all (c : Canvas) (st : GenState) (m : List (Nat × Nat))
    (values : CompValues) :
    ∀ comps : List (CompKind × Pt),
      (∀ kp ∈ comps, kp.1 = voltmeter ∨ kp.1 = ammeter ∨ kp.1 = ground) →
      ∀ cts acc, serLoop c st m values comps cts acc = .ok (acc, cts) := by
  intro comps
  induction comps with
  | nil => intro h cts acc; rfl
  | cons kp rest ih =>
      intro h cts acc
      obtain ⟨k, pos⟩ := kp
      have htail := fun kp' hkp' => h kp' (List.mem_cons_of_mem _ hkp')
      rcases h (k, pos) (List.mem_cons_self _ _) with hk | hk | hk <;>
        (cases hk; exact ih htail cts acc)

/-- An empty canvas. -/
def canvasEmpty : Canvas := ⟨[], []⟩

/-- C9: For a model with zero qualifying components (in particular, zero
components at all), `generate_netlist` returns the empty string and raises
no error. -/
theorem spec_C9 (c : Canvas) (values : CompValues) (st : GenState)
    (h : ∀ kp ∈ c.components,
      kp.1 = voltmeter ∨ kp.1 = ammeter ∨ kp.1 = ground) :
    (generateNetlist c values st).1 = Except.ok "" := by
  rw [generateNetlist_eq]
  show serResult c values = _
  unfold serResult
  rw [serLoop_skip_all c (stRun c) (mergeOf c) values c.components h counts0 []]
  rfl

theorem spec_C9_witness :
    (generateNetlist canvasEmpty defaultValues st0).1 = Except.ok "" :=
  spec_C9 canvasEmpty defaultValues st0 (by intro kp hkp; cases hkp)

/-- Composition of the serialization loop over a list split: once a prefix
has been processed successfully, the loop continues on the suffix with the
accumulated lines and counters. -/
theorem serLoop_break (c : Canvas) (st : GenState) (m : List (Nat × Nat))
    (values : CompValues) :
    ∀ (pre rest : List (CompKind × Pt)) (cts : Counts)
      (acc lines : List String) (cts' : Counts),
      serLoop c st m values pre cts acc = Except.ok (lines, cts') →
      serLoop c st m values (pre ++ rest) cts acc =
        serLoop c st m values rest cts' lines := by
  intro pre
  induction pre with
  | nil =>
      intro rest cts acc lines cts' h
      have h' : ((acc, cts) : List String × Counts) = (lines, cts') :=
        Except.ok.inj h
      cases h'
      rfl
  | cons kp pre' ih =>
      intro rest cts acc lines cts' h
      rw [show serLoop c st m values (kp :: pre') cts acc =
          (match serStep c st m values kp cts acc with
            | .ok r => serLoop c st m values pre' r.2 r.1
            | .error e => .error e) from rfl] at h
      rcases hs : serStep c st m values kp cts acc with e | r
      · rw [hs] at h
        have h' : (Except.error e : Except NetlistError (List String × Counts)) =
            Except.ok (lines, cts') := h
        cases h'
      · rw [hs] at h
        have h' : serLoop c st m values pre' r.2 r.1 = Except.ok (lines, cts') := h
        rw [show serLoop c st m values ((kp :: pre') ++ rest) cts acc =
          (match serStep c st m values kp cts acc with
            | .ok r => serLoop c st m values (pre' ++ rest) r.2 r.1
            | .error e => .error e) from rfl, hs]
        exact ih rest r.2 r.1 lines cts' h'

/-- Whether the serializer emits a line for a component kind (a
two-terminal electrical element, per the spec). -/
def specQualifies (k : CompKind) : Bool :=
  match k with
  | resistor | battery | capacitor | inductor => true
  | _ => false

/-- On a qualifying component `serStep` resolves both pins, with its two pins spelled out. -/
theorem serStep_qualified (c : Canvas) (st : GenState) (m : List (Nat × Nat))
    (values : CompValues) (k : CompKind) (pos : Pt) (cts : Counts)
    (acc : List String) (hk : specQualifies k = true) :
    serStep c st m values (k, pos) cts acc =
      match mergeLookupE m (getNode c st (pos.1 - 30, pos.2) false).1,
          mergeLookupE m (getNode c st (pos.1 + 30, pos.2) false).1 with
      | .error e, _ => .error e
      | .ok _, .error e => .error e
      | .ok n1, .ok n2 =>
          if n1 = n2 then .error (.short k n1)
          else .ok (acc ++
            [(pfxVal k values).1 ++ toString (countOf (bump cts k) k) ++ " " ++
              toString n1 ++ " " ++ toString n2 ++ " " ++ (pfxVal k values).2],
            bump cts k) := by
  cases k <;> first | rfl | cases hk

/-- On a non-qualifying component `serStep` is a skip. -/
theorem serStep_skip (c : Canvas) (st : GenState) (m : List (Nat × Nat))
    (values : CompValues) (k : CompKind) (pos : Pt) (cts : Counts)
    (acc : List String) (hk : specQualifies k = false) :
    serStep c st m values (k, pos) cts acc = .ok (acc, cts) := by
  cases k <;> first | rfl | cases hk

/-- C3: For every two-terminal electrical component (resistor, battery,
capacitor, inductor) whose two pins resolve through merge to the same
final node id, and which is the first component the serializer fails on
(everything before it serialized fine), generation fails immediately with
a short-circuit error naming the offending component kind and the shared
node id, and no partial netlist is returned (the result is the error, not
a string). -/
theorem spec_C3 (c : Canvas) (values : CompValues) (st : GenState)
    (pre : List (CompKind × Pt)) (k : CompKind) (pos : Pt)
    (post : List (CompKind × Pt)) (lines : List String) (cts' : Counts)
    (n : Nat)
    (hcomps : c.components = pre ++ (k, pos) :: post)
    (hk : specQualifies k = true)
    (hpre : serLoop c (stRun c) (mergeOf c) values pre counts0 [] =
      Except.ok (lines, cts'))
    (h1 : mergeLookupE (mergeOf c)
      (getNode c (stRun c) (pos.1 - 30, pos.2) false).1 = Except.ok n)
    (h2 : mergeLookupE (mergeOf c)
      (getNode c (stRun c) (pos.1 + 30, pos.2) false).1 = Except.ok n) :
    (generateNetlist c values st).1 =
      Except.error (NetlistError.short k n) := by
  rw [generateNetlist_eq]
  show serResult c values = _
  unfold serResult
  rw [hcomps, serLoop_break c (stRun c) (mergeOf c) values pre
    ((k, pos) :: post) counts0 [] lines cts' hpre]
  rw [show serLoop c (stRun c) (mergeOf c) values ((k, pos) :: post) cts'
      lines =
      (match serStep c (stRun c) (mergeOf c) values (k, pos) cts' lines with
        | .ok r => serLoop c (stRun c) (mergeOf c) values post r.2 r.1
        | .error e => .error e) from rfl]
  rw [serStep_qualified c (stRun c) (mergeOf c) values k pos cts' lines hk,
    h1, h2]
  simp

theorem spec_C3_witness :
    (generateNetlist canvasShort defaultValues st0).1 =
      Except.error (NetlistError.short resistor 1) :=
  spec_C3 canvasShort defaultValues st0 [] resistor ((0 : Int), (0 : Int)) []
    [] counts0 1 rfl rfl rfl
    (by rw [mergeOf_canvasShort]; rfl)
    (by rw [mergeOf_canvasShort]; rfl)

/-! ### The serializer against the specified line format -/

/-- Final resolution of a pin: raw id through `_get_node` (lookup-only),
then through the merge table. -/
def resolveFinal (c : Canvas) (st : GenState) (m : List (Nat × Nat))
    (p : Pt) : Option Nat :=
  match (getNode c st p false).1 with
  | none => none
  | some r => mlookup m r

theorem mergeLookupE_resolve (c : Canvas) (st : GenState)
    (m : List (Nat × Nat)) (p : Pt) (n : Nat) :
    mergeLookupE m (getNode c st p false).1 = Except.ok n ↔
      resolveFinal c st m p = some n := by
  unfold resolveFinal
  rcases (getNode c st p false).1 with _ | r
  · simp [mergeLookupE]
  · unfold mergeLookupE
    rcases hv : mlookup m r with _ | v <;> simp [hv]

/-- Prefix letter per component kind, as the spec's table gives it. -/
def specPfx : CompKind → String
  | resistor => "R"
  | battery => "V"
  | capacitor => "C"
  | inductor => "L"
  | _ => ""

/-- Per-kind default value, as the spec's table gives it. -/
def specDefault : CompKind → String
  | resistor => "100"
  | battery => "5"
  | capacitor => "1e-6"
  | inductor => "1e-3"
  | _ => ""

/-- The caller's override for a kind, keyed by its prefix letter. -/
def specValueOf (values : CompValues) : CompKind → Option String
  | resistor => values.R
  | battery => values.V
  | capacitor => values.C
  | inductor => values.L
  | _ => none

/-- The emitted value: the caller's string verbatim, or the default. -/
def specValue (values : CompValues) (k : CompKind) : String :=
  (specValueOf values k).getD (specDefault k)

/-- One netlist line in the specified format
`<Letter><Index> <Node1> <Node2> <Value>`. -/
def specLine (values : CompValues) (k : CompKind) (idx n1 n2 : Nat) : String :=
  specPfx k ++ toString idx ++ " " ++ toString n1 ++ " " ++ toString n2 ++
    " " ++ specValue values k

/-- The line sequence specified for the serializer (spec sections 4.5 and
6): walk the component list in order, skip meters and grounds, give each
qualifying component the next per-kind instance index (starting at 1) and
emit one line with its two resolved final nodes and its value.  (It
truncates at a component that fails to resolve or shorts, which cannot
happen on a successful run.) -/
def specEmit (resolve : Pt → Option Nat) (values : CompValues) :
    List (CompKind × Pt) → Counts → List String
  | [], _ => []
  | (k, pos) :: rest, cts =>
      if specQualifies k then
        match get_component_pins k pos with
        | p1 :: p2 :: _ =>
            match resolve p1, resolve p2 with
            | some n1, some n2 =>
                if n1 = n2 then []
                else specLine values k (countOf (bump cts k) k) n1 n2 ::
                  specEmit resolve values rest (bump cts k)
            | _, _ => []
        | _ => []
      else specEmit resolve values rest cts

theorem specEmit_qualified (resolve : Pt → Option Nat) (values : CompValues)
    (k : CompKind) (pos : Pt) (rest : List (CompKind × Pt)) (cts : Counts)
    (hk : specQualifies k = true) :
    specEmit resolve values ((k, pos) :: rest) cts =
      match resolve (pos.1 - 30, pos.2), resolve (pos.1 + 30, pos.2) with
      | some n1, some n2 =>
          if n1 = n2 then []
          else specLine values k (countOf (bump cts k) k) n1 n2 ::
            specEmit resolve values rest (bump cts k)
      | _, _ => [] := by
  cases k <;> first | rfl | cases hk

theorem specEmit_skip (resolve : Pt → Option Nat) (values : CompValues)
    (k : CompKind) (pos : Pt) (rest : List (CompKind × Pt)) (cts : Counts)
    (hk : specQualifies k = false) :
    specEmit resolve values ((k, pos) :: rest) cts =
      specEmit resolve values rest cts := by
  cases k <;> first | rfl | cases hk

theorem specLine_eq (values : CompValues) (k : CompKind) (idx n1 n2 : Nat)
    (hk : specQualifies k = true) :
    specLine values k idx n1 n2 =
      (pfxVal k values).1 ++ toString idx ++ " " ++ toString n1 ++ " " ++
        toString n2 ++ " " ++ (pfxVal k values).2 := by
  cases k <;> first | rfl | cases hk

/-- A successful serialization run produces exactly the specified lines. -/
theorem serLoop_ok_emit (c : Canvas) (st : GenState) (m : List (Nat × Nat))
    (values : CompValues) :
    ∀ (comps : List (CompKind × Pt)) (cts : Counts) (acc lines : List String)
      (cts'' : Counts),
      serLoop c st m values comps cts acc = Except.ok (lines, cts'') →
      lines = acc ++ specEmit (resolveFinal c st m) values comps cts := by
  intro comps
  induction comps with
  | nil =>
      intro cts acc lines cts'' h
      have h' : ((acc, cts) : List String × Counts) = (lines, cts'') :=
        Except.ok.inj h
      cases h'
      simp [specEmit]
  | cons kp rest ih =>
      intro cts acc lines cts'' h
      obtain ⟨k, pos⟩ := kp
      rw [show serLoop c st m values ((k, pos) :: rest) cts acc =
          (match serStep c st m values (k, pos) cts acc with
            | .ok r => serLoop c st m values rest r.2 r.1
            | .error e => .error e) from rfl] at h
      by_cases hq : specQualifies k = true
      · rw [serStep_qualified c st m values k pos cts acc hq] at h
        rcases hr1 : mergeLookupE m (getNode c st (pos.1 - 30, pos.2) false).1
          with e1 | n1
        · rcases hr2 : mergeLookupE m (getNode c st (pos.1 + 30, pos.2) false).1
            with e2 | n2 <;> rw [hr1, hr2] at h <;>
            · have h' : (Except.error e1 :
                  Except NetlistError (List String × Counts)) =
                  Except.ok (lines, cts'') := h
              cases h'
        · rcases hr2 : mergeLookupE m (getNode c st (pos.1 + 30, pos.2) false).1
            with e2 | n2
          · rw [hr1, hr2] at h
            have h' : (Except.error e2 :
                Except NetlistError (List String × Counts)) =
                Except.ok (lines, cts'') := h
            cases h'
          · rw [hr1, hr2] at h
            dsimp only at h
            have hv1 : resolveFinal c st m (pos.1 - 30, pos.2) = some n1 :=
              (mergeLookupE_resolve c st m _ n1).mp hr1
            have hv2 : resolveFinal c st m (pos.1 + 30, pos.2) = some n2 :=
              (mergeLookupE_resolve c st m _ n2).mp hr2
            by_cases hn : n1 = n2
            · rw [if_pos hn] at h
              have h' : (Except.error (NetlistError.short k n1) :
                  Except NetlistError (List String × Counts)) =
                  Except.ok (lines, cts'') := h
              cases h'
            · rw [if_neg hn] at h
              have h' : serLoop c st m values rest (bump cts k)
                  (acc ++ [(pfxVal k values).1 ++
                    toString (countOf (bump cts k) k) ++ " " ++ toString n1 ++
                    " " ++ toString n2 ++ " " ++ (pfxVal k values).2]) =
                  Except.ok (lines, cts'') := h
              rw [ih (bump cts k) _ lines cts'' h']
              rw [specEmit_qualified (resolveFinal c st m) values k pos rest
                cts hq, hv1, hv2]
              dsimp only
              rw [if_neg hn,
                specLine_eq values k (countOf (bump cts k) k) n1 n2 hq]
              simp
      · have hq' : specQualifies k = false := by
          revert hq
          cases specQualifies k <;> simp
        rw [serStep_skip c st m values k pos cts acc hq'] at h
        have h' : serLoop c st m values rest cts acc =
            Except.ok (lines, cts'') := h
        rw [ih cts acc lines cts'' h',
          specEmit_skip (resolveFinal c st m) values k pos rest cts hq']

/-- C7: For every generation run that returns a netlist, the output is
exactly the newline-joined specified line sequence: one line per
resistor/battery/capacitor/inductor in component-list order, of the form
`<Letter><Index> <Node1> <Node2> <Value>` with letters R/V/C/L, a
per-kind instance index starting at 1, and the value taken verbatim from
the caller's map with defaults R=100, V=5, C=1e-6, L=1e-3 when absent;
voltmeter, ammeter, and ground components never produce a line. -/
theorem spec_C7 (c : Canvas) (values : CompValues) (st : GenState)
    (s : String)
    (h : (generateNetlist c values st).1 = Except.ok s) :
    s = String.intercalate "\n"
      (specEmit (resolveFinal c (stRun c) (mergeOf c)) values
        c.components counts0) := by
  rw [generateNetlist_eq] at h
  have h2 : serResult c values = Except.ok s := h
  unfold serResult at h2
  rcases hs : serLoop c (stRun c) (mergeOf c) values c.components counts0 []
    with e | r
  · rw [hs] at h2
    have h' : (Except.error e : Except NetlistError String) = Except.ok s := h2
    cases h'
  · rw [hs] at h2
    have h' : Except.ok (String.intercalate "\n" r.1) = Except.ok s := h2
    have hs2 : s = String.intercalate "\n" r.1 := (Except.ok.inj h').symm
    rw [hs2]
    congr 1
    have hr : serLoop c (stRun c) (mergeOf c) values c.components counts0 [] =
        Except.ok (r.1, r.2) := by rw [hs]
    have := serLoop_ok_emit c (stRun c) (mergeOf c) values c.components
      counts0 [] r.1 r.2 hr
    simpa using this

theorem spec_C7_witness :
    "R1 1 2 100" = String.intercalate "\n"
      (specEmit (resolveFinal canvasLoneR (stRun canvasLoneR)
        (mergeOf canvasLoneR)) defaultValues canvasLoneR.components counts0) :=
  spec_C7 canvasLoneR defaultValues st0 "R1 1 2 100"
    (by rw [generateNetlist_eq]
        show serResult canvasLoneR defaultValues = _
        unfold serResult
        rw [mergeOf_canvasLoneR]
        rfl)

end Circuit
